import Mathlib

/-!
# Verification of the picpick grouping core (`index_photos.py`)

A shallow embedding of the grouping/clustering core of `index_photos.py`:

* `findNearDuplicates`  models `find_near_duplicates` (lines 318-343);
* `normalizeRow`        models the embedding normalization (line 695);
* `refineClustersByFaces` models `refine_clusters_by_faces` (lines 595-663);
* `clusterRun`          models the storage phase of `cluster_photos`
                        (lines 672-807).

Photo ids are `Nat` (SQLite integer primary keys), DBSCAN labels are `Int`
(the noise label is `-1`), perceptual hashes are bit lists (`str(imagehash)`
is injective on hashes of one size, so string equality coincides with
bit-list equality), person sets are `Finset Nat`.

Python `dict`s keep insertion order; the hash-bucket dictionaries built by
the source are modeled by the association list `dictAppend` / `groupPairs`.
-/

namespace PicPick

/-- One insertion into a Python-style insertion-ordered dictionary of lists:
`d.setdefault(k, []).append(v)`.  If the key is present the value is appended
to its bucket, otherwise a fresh bucket is appended at the end. -/
def dictAppend {α β : Type} [DecidableEq α] : List (α × List β) → α → β → List (α × List β)
  | [], k, v => [(k, [v])]
  | (k0, vs) :: rest, k, v =>
      if k0 = k then (k0, vs ++ [v]) :: rest
      else (k0, vs) :: dictAppend rest k v

/-- Build the insertion-ordered dictionary of buckets from a list of
(key, value) pairs, exactly as the `for` loops in the source do. -/
def groupPairs {α β : Type} [DecidableEq α] (l : List (α × β)) : List (α × List β) :=
  l.foldl (fun m p => dictAppend m p.1 p.2) []

theorem dictAppend_mem_elim {α β : Type} [DecidableEq α]
    {m : List (α × List β)} {k : α} {v : β} {k' : α} {vs' : List β}
    (h : (k', vs') ∈ dictAppend m k v) :
    (∃ vs0, (k', vs0) ∈ m ∧ (vs' = vs0 ∨ (k' = k ∧ vs' = vs0 ++ [v]))) ∨
      (k' = k ∧ vs' = [v]) := by
  induction m with
  | nil =>
      simp only [dictAppend, List.mem_singleton, Prod.mk.injEq] at h
      exact Or.inr h
  | cons p rest ih =>
      obtain ⟨k0, vs0⟩ := p
      by_cases hk : k0 = k
      · simp only [dictAppend, if_pos hk, List.mem_cons, Prod.mk.injEq] at h
        rcases h with ⟨h1, h2⟩ | h
        · exact Or.inl ⟨vs0, by rw [h1]; exact List.mem_cons_self _ _,
            Or.inr ⟨h1.trans hk, h2⟩⟩
        · exact Or.inl ⟨vs', List.mem_cons_of_mem _ h, Or.inl rfl⟩
      · simp only [dictAppend, if_neg hk, List.mem_cons] at h
        rcases h with h | h
        · exact Or.inl ⟨vs', by simp [h], Or.inl rfl⟩
        · rcases ih h with ⟨vs0, hmem, hcase⟩ | hnew
          · exact Or.inl ⟨vs0, List.mem_cons_of_mem _ hmem, hcase⟩
          · exact Or.inr hnew

/-- After an insertion, the inserted value is present in the bucket of its key. -/
theorem dictAppend_self {α β : Type} [DecidableEq α]
    (m : List (α × List β)) (k : α) (v : β) :
    ∃ vs, (k, vs) ∈ dictAppend m k v ∧ v ∈ vs := by
  induction m with
  | nil => exact ⟨[v], by simp [dictAppend]⟩
  | cons p rest ih =>
      obtain ⟨k0, vs0⟩ := p
      by_cases hk : k0 = k
      · subst hk
        exact ⟨vs0 ++ [v], by simp [dictAppend]⟩
      · obtain ⟨vs, hmem, hv⟩ := ih
        exact ⟨vs, by simp [dictAppend, hk, hmem], hv⟩

/-- Insertion never removes values already present in some bucket. -/
theorem dictAppend_mono {α β : Type} [DecidableEq α]
    {m : List (α × List β)} (k : α) (v : β) {k' : α} {vs' : List β}
    (h : (k', vs') ∈ m) :
    ∃ vs'', (k', vs'') ∈ dictAppend m k v ∧ ∀ x ∈ vs', x ∈ vs'' := by
  induction m with
  | nil => cases h
  | cons p rest ih =>
      obtain ⟨k0, vs0⟩ := p
      rcases List.mem_cons.1 h with h | h
      · rw [Prod.mk.injEq] at h
        obtain ⟨h1, h2⟩ := h
        by_cases hk : k0 = k
        · refine ⟨vs0 ++ [v], ?_, fun x hx => List.mem_append_left _ (h2 ▸ hx)⟩
          rw [h1]
          simp [dictAppend, hk]
        · refine ⟨vs0, ?_, fun x hx => h2 ▸ hx⟩
          rw [h1]
          simp [dictAppend, hk, h2]
      · by_cases hk : k0 = k
        · exact ⟨vs', by simp [dictAppend, hk, h], fun x hx => hx⟩
        · obtain ⟨vs'', hmem, hsub⟩ := ih h
          exact ⟨vs'', by simp [dictAppend, hk, hmem], hsub⟩

/-- The key list after an insertion: unchanged if the key was present,
otherwise the key is appended. -/
theorem dictAppend_keys {α β : Type} [DecidableEq α]
    (m : List (α × List β)) (k : α) (v : β) :
    (dictAppend m k v).map Prod.fst =
      if k ∈ m.map Prod.fst then m.map Prod.fst else m.map Prod.fst ++ [k] := by
  induction m with
  | nil => simp [dictAppend]
  | cons p rest ih =>
      obtain ⟨k0, vs0⟩ := p
      by_cases hk : k0 = k
      · subst hk; simp [dictAppend]
      · have hk' : ¬ k = k0 := fun h => hk h.symm
        simp only [dictAppend, if_neg hk, List.map_cons, List.mem_cons]
        rw [ih]
        by_cases hmem : k ∈ rest.map Prod.fst
        · simp [hmem, hk']
        · simp [hmem, hk']

-- Soundness of the fold: every value in a bucket of `groupPairs l` was paired
-- with that bucket's key in `l`.

theorem groupPairs_sound_aux {α β : Type} [DecidableEq α]
    (L : List (α × β)) :
    ∀ (l : List (α × β)) (m : List (α × List β)),
      (∀ k vs, (k, vs) ∈ m → ∀ v ∈ vs, (k, v) ∈ L) →
      (∀ p ∈ l, p ∈ L) →
      ∀ k vs, (k, vs) ∈ l.foldl (fun m p => dictAppend m p.1 p.2) m →
        ∀ v ∈ vs, (k, v) ∈ L := by
  intro l
  induction l with
  | nil => intro m hm _ k vs hmem v hv; exact hm k vs hmem v hv
  | cons p rest ih =>
      intro m hm hl k vs hmem v hv
      refine ih (dictAppend m p.1 p.2) ?_ (fun q hq => hl q (List.mem_cons_of_mem _ hq))
        k vs hmem v hv
      intro k' vs' h' v' hv'
      rcases dictAppend_mem_elim h' with ⟨vs0, hvs0, hcase⟩ | ⟨hk, hvs⟩
      · rcases hcase with he | ⟨hk, he⟩
        · exact hm k' vs0 hvs0 v' (he ▸ hv')
        · rw [he] at hv'
          rcases List.mem_append.1 hv' with h | h
          · exact hm _ vs0 hvs0 v' h
          · have hv2 : v' = p.2 := List.mem_singleton.1 h
            rw [hk, hv2]
            exact hl p (List.mem_cons_self _ _)
      · have hv2 : v' = p.2 := by
          rw [hvs] at hv'
          exact List.mem_singleton.1 hv'
        rw [hk, hv2]
        exact hl p (List.mem_cons_self _ _)

theorem groupPairs_sound {α β : Type} [DecidableEq α]
    {l : List (α × β)} {k : α} {vs : List β}
    (h : (k, vs) ∈ groupPairs l) : ∀ v ∈ vs, (k, v) ∈ l :=
  groupPairs_sound_aux l l [] (by intro k vs h; cases h) (fun _ hp => hp) k vs h

-- Completeness: every input pair lands in the bucket of its key.

theorem groupPairs_complete_aux {α β : Type} [DecidableEq α]
    {k : α} {v : β} :
    ∀ (l : List (α × β)) (m : List (α × List β)),
      ((k, v) ∈ l ∨ ∃ vs0, (k, vs0) ∈ m ∧ v ∈ vs0) →
      ∃ vs, (k, vs) ∈ l.foldl (fun m p => dictAppend m p.1 p.2) m ∧ v ∈ vs := by
  intro l
  induction l with
  | nil =>
      intro m h
      rcases h with h | h
      · cases h
      · exact h
  | cons p rest ih =>
      intro m h
      refine ih (dictAppend m p.1 p.2) ?_
      rcases h with h | ⟨vs0, hmem, hv⟩
      · rcases List.mem_cons.1 h with h | h
        · right
          rw [← h]
          exact dictAppend_self m k v
        · exact Or.inl h
      · right
        obtain ⟨vs'', hmem', hsub⟩ := dictAppend_mono p.1 p.2 hmem
        exact ⟨vs'', hmem', hsub v hv⟩

theorem groupPairs_complete {α β : Type} [DecidableEq α]
    {l : List (α × β)} {k : α} {v : β} (h : (k, v) ∈ l) :
    ∃ vs, (k, vs) ∈ groupPairs l ∧ v ∈ vs :=
  groupPairs_complete_aux l [] (Or.inl h)

-- The keys of `groupPairs l` are distinct.

theorem groupPairs_keysNodup_aux {α β : Type} [DecidableEq α] :
    ∀ (l : List (α × β)) (m : List (α × List β)),
      (m.map Prod.fst).Nodup →
      ((l.foldl (fun m p => dictAppend m p.1 p.2) m).map Prod.fst).Nodup := by
  intro l
  induction l with
  | nil => intro m hm; exact hm
  | cons p rest ih =>
      intro m hm
      refine ih (dictAppend m p.1 p.2) ?_
      rw [dictAppend_keys]
      by_cases hmem : p.1 ∈ m.map Prod.fst
      · simpa [hmem] using hm
      · simp only [if_neg hmem]
        exact List.Nodup.append hm (List.nodup_singleton _)
          (fun a ha hb => hmem ((List.mem_singleton.1 hb) ▸ ha))

theorem groupPairs_keysNodup {α β : Type} [DecidableEq α] (l : List (α × β)) :
    ((groupPairs l).map Prod.fst).Nodup :=
  groupPairs_keysNodup_aux l [] (by simp)

/-- Distinct keys determine associated values uniquely. -/
theorem mem_unique_of_keysNodup {α β : Type}
    {m : List (α × β)} (hnd : (m.map Prod.fst).Nodup)
    {k : α} {vs vs' : β} (h : (k, vs) ∈ m) (h' : (k, vs') ∈ m) : vs = vs' := by
  induction m with
  | nil => cases h
  | cons p rest ih =>
      rw [List.map_cons, List.nodup_cons] at hnd
      rcases List.mem_cons.1 h with h1 | h1 <;> rcases List.mem_cons.1 h' with h2 | h2
      · rw [← h2] at h1
        rw [Prod.ext_iff] at h1
        exact h1.2
      · exfalso
        have hk : p.1 = k := congrArg Prod.fst h1.symm
        have hmem : k ∈ rest.map Prod.fst := List.mem_map.2 ⟨(k, vs'), h2, rfl⟩
        rw [hk] at hnd
        exact hnd.1 hmem
      · exfalso
        have hk : p.1 = k := congrArg Prod.fst h2.symm
        have hmem : k ∈ rest.map Prod.fst := List.mem_map.2 ⟨(k, vs), h1, rfl⟩
        rw [hk] at hnd
        exact hnd.1 hmem
      · exact ih hnd.2 h1 h2

/-- Buckets hold no duplicates when the input values are distinct. -/
theorem groupPairs_bucketNodup_aux {α β : Type} [DecidableEq α] [DecidableEq β] :
    ∀ (l : List (α × β)) (m : List (α × List β)),
      (l.map Prod.snd).Nodup →
      (∀ k vs, (k, vs) ∈ m → vs.Nodup ∧ ∀ x ∈ vs, x ∉ l.map Prod.snd) →
      ∀ k vs, (k, vs) ∈ l.foldl (fun m p => dictAppend m p.1 p.2) m → vs.Nodup := by
  intro l
  induction l with
  | nil => intro m _ hm k vs hmem; exact (hm k vs hmem).1
  | cons p rest ih =>
      intro m hl hm k vs hmem
      rw [List.map_cons, List.nodup_cons] at hl
      refine ih (dictAppend m p.1 p.2) hl.2 ?_ k vs hmem
      intro k' vs' h'
      rcases dictAppend_mem_elim h' with ⟨vs0, hvs0, hcase⟩ | ⟨hk, hvs⟩
      · obtain ⟨hnd0, hnotin0⟩ := hm k' vs0 hvs0
        rcases hcase with rfl | ⟨rfl, rfl⟩
        · exact ⟨hnd0, fun x hx =>
            fun hmem' => hnotin0 x hx (List.mem_cons_of_mem _ hmem')⟩
        · constructor
          · refine List.Nodup.append hnd0 (List.nodup_singleton _) ?_
            intro a ha hb
            have : a = p.2 := List.mem_singleton.1 hb
            subst this
            exact hnotin0 _ ha (List.mem_cons_self _ _)
          · intro x hx
            rcases List.mem_append.1 hx with h | h
            · exact fun hmem' => hnotin0 x h (List.mem_cons_of_mem _ hmem')
            · have : x = p.2 := List.mem_singleton.1 h
              subst this
              exact hl.1
      · subst hvs
        refine ⟨List.nodup_singleton _, ?_⟩
        intro x hx
        have : x = p.2 := List.mem_singleton.1 hx
        subst this
        exact hl.1

theorem groupPairs_bucketNodup {α β : Type} [DecidableEq α] [DecidableEq β]
    {l : List (α × β)} (hl : (l.map Prod.snd).Nodup)
    {k : α} {vs : List β} (h : (k, vs) ∈ groupPairs l) : vs.Nodup :=
  groupPairs_bucketNodup_aux l [] hl (by intro k vs h; cases h) k vs h

/-- Buckets are never empty. -/
theorem groupPairs_bucket_ne_nil {α β : Type} [DecidableEq α]
    {l : List (α × β)} {k : α} {vs : List β}
    (h : (k, vs) ∈ groupPairs l) : vs ≠ [] := by
  intro hnil
  subst hnil
  have := groupPairs_sound h
  -- an empty bucket can only arise from `dictAppend`, which always appends;
  -- show directly that no bucket is empty
  clear this
  revert h
  suffices H : ∀ (l' : List (α × β)) (m : List (α × List β)),
      (∀ k' vs', (k', vs') ∈ m → vs' ≠ []) →
      ∀ k', (k', ([] : List β)) ∈ l'.foldl (fun m p => dictAppend m p.1 p.2) m → False by
    intro h
    exact H l [] (by intro k' vs' h'; cases h') k h
  intro l'
  induction l' with
  | nil => intro m hm k' h; exact hm k' [] h rfl
  | cons p rest ih =>
      intro m hm k' h
      refine ih (dictAppend m p.1 p.2) ?_ k' h
      intro k'' vs'' h'' hnil
      subst hnil
      rcases dictAppend_mem_elim h'' with ⟨vs0, hvs0, hcase⟩ | ⟨_, hvs⟩
      · rcases hcase with rfl | ⟨_, habs⟩
        · exact hm _ _ hvs0 rfl
        · exact absurd habs.symm (by simp)
      · exact absurd hvs.symm (by simp)

/-! ## `find_near_duplicates` (index_photos.py lines 318-343)

The input is the result of
`SELECT id, dhash FROM photos WHERE dhash IS NOT NULL AND dhash != ''`:
a list of `(id, dhash)` rows where `dhash` is `Option (List Bool)`
(`none` = SQL NULL, `some []` = the empty string that `compute_dhash`
returns on failure).  The function buckets the rows by exact hash and
returns the buckets of size `> 1`. -/

/-- Constant `DHASH_THRESHOLD = 10` (line 42); declared in the source but never read
by `find_near_duplicates`. -/
def DHASH_THRESHOLD : Nat := 10

/-- Hamming distance between two equal-length bit strings: the number of
positions at which they differ. -/
def hammingDist (h1 h2 : List Bool) : Nat :=
  ((h1.zip h2).filter (fun p => p.1 ≠ p.2)).length

/-- The `WHERE dhash IS NOT NULL AND dhash != ''` filter of the query at
line 323. -/
def validHashRows (photos : List (Nat × Option (List Bool))) : List (Nat × List Bool) :=
  photos.filterMap (fun p => match p.2 with
    | none => none
    | some h => if h = [] then none else some (p.1, h))

/-- Model of `find_near_duplicates`: build `hash_to_ids` (lines 329-334), then keep
the buckets with more than one photo (line 337). -/
def findNearDuplicates (photos : List (Nat × Option (List Bool))) : List (List Nat) :=
  let hashToIds := groupPairs ((validHashRows photos).map (fun p => (p.2, p.1)))
  (hashToIds.filter (fun g => 1 < g.2.length)).map Prod.snd

theorem validHashRows_mem {photos : List (Nat × Option (List Bool))}
    {i : Nat} {h : List Bool} :
    (i, h) ∈ validHashRows photos ↔ ((i, some h) ∈ photos ∧ h ≠ []) := by
  constructor
  · intro hm
    obtain ⟨p, hp, he⟩ := List.mem_filterMap.1 hm
    obtain ⟨j, oh⟩ := p
    match oh with
    | none => simp at he
    | some h0 =>
        by_cases h0nil : h0 = []
        · simp [h0nil] at he
        · simp only [if_neg h0nil, Option.some.injEq, Prod.mk.injEq] at he
          obtain ⟨he1, he2⟩ := he
          rw [← he1, ← he2]
          exact ⟨hp, h0nil⟩
  · intro ⟨hp, hne⟩
    exact List.mem_filterMap.2 ⟨(i, some h), hp, by simp [if_neg hne]⟩

theorem findNearDuplicates_group_iff {photos : List (Nat × Option (List Bool))}
    {g : List Nat} :
    g ∈ findNearDuplicates photos ↔
      (∃ h, (h, g) ∈ groupPairs ((validHashRows photos).map (fun p => (p.2, p.1))) ∧
        1 < g.length) := by
  unfold findNearDuplicates
  constructor
  · intro hm
    obtain ⟨⟨h, g'⟩, hmem, he⟩ := List.mem_map.1 hm
    obtain ⟨hmem', hlen⟩ := List.mem_filter.1 hmem
    have hg : g' = g := he
    subst hg
    exact ⟨h, hmem', by simpa using hlen⟩
  · intro ⟨h, hmem, hlen⟩
    exact List.mem_map.2 ⟨(h, g), List.mem_filter.2 ⟨hmem, by simpa using hlen⟩, rfl⟩

/-- Every member of a returned group has the bucket's hash in the input table. -/
theorem findNearDuplicates_group_hash {photos : List (Nat × Option (List Bool))}
    {g : List Nat} (hg : g ∈ findNearDuplicates photos) :
    ∃ h, h ≠ [] ∧ ∀ i ∈ g, (i, some h) ∈ photos := by
  obtain ⟨h, hmem, hlen⟩ := findNearDuplicates_group_iff.1 hg
  have hsound := groupPairs_sound hmem
  have hne : g ≠ [] := by
    intro hnil
    rw [hnil] at hlen
    simp at hlen
  obtain ⟨i0, hi0⟩ := List.exists_mem_of_ne_nil g hne
  have h0 := hsound i0 hi0
  obtain ⟨⟨j, hb⟩, hjmem, hje⟩ := List.mem_map.1 h0
  rw [Prod.mk.injEq] at hje
  have hvalid := validHashRows_mem.1 hjmem
  refine ⟨h, by rw [← hje.1]; exact hvalid.2, ?_⟩
  intro i hi
  have hrow := hsound i hi
  obtain ⟨⟨j', hb'⟩, hjmem', hje'⟩ := List.mem_map.1 hrow
  rw [Prod.mk.injEq] at hje'
  have hvalid' := validHashRows_mem.1 hjmem'
  rw [← hje'.2, ← hje'.1]
  exact hvalid'.1

theorem mem_swapMap {γ δ : Type} {l : List (γ × δ)} {k : δ} {x : γ} :
    (k, x) ∈ l.map (fun p => (p.2, p.1)) ↔ (x, k) ∈ l := by
  constructor
  · intro h
    obtain ⟨⟨a, b⟩, hp, he⟩ := List.mem_map.1 h
    rw [Prod.mk.injEq] at he
    rw [← he.1, ← he.2]
    exact hp
  · intro h
    exact List.mem_map.2 ⟨(x, k), h, rfl⟩

theorem one_lt_length_of_two_mem {γ : Type} {l : List γ} {a b : γ}
    (hab : a ≠ b) (ha : a ∈ l) (hb : b ∈ l) : 1 < l.length := by
  match l with
  | [] => cases ha
  | [x] =>
      exact absurd ((List.mem_singleton.1 ha).trans (List.mem_singleton.1 hb).symm) hab
  | x :: y :: t =>
      simp only [List.length_cons]
      omega

/-- A photo id carries a unique `dhash` when the ids are distinct. -/
theorem photos_hash_unique {photos : List (Nat × Option (List Bool))}
    (hnd : (photos.map Prod.fst).Nodup) {i : Nat} {h h' : Option (List Bool)}
    (hm : (i, h) ∈ photos) (hm' : (i, h') ∈ photos) : h = h' :=
  mem_unique_of_keysNodup hnd hm hm'

/-- C1, counterexample.  Two photos whose perceptual hashes differ in a
single bit — Hamming distance 1, well inside `DHASH_THRESHOLD` — are *not*
grouped by `find_near_duplicates`: the code buckets by exact hash equality
and never computes a Hamming distance, so the returned group list is empty. -/
theorem C1_counterexample :
    hammingDist [false] [true] ≤ DHASH_THRESHOLD ∧
      findNearDuplicates [(1, some [false]), (2, some [true])] = [] ∧
      ¬ ∃ g ∈ findNearDuplicates [(1, some [false]), (2, some [true])],
          1 ∈ g ∧ 2 ∈ g := by
  decide

/-- C1, amended.  `find_near_duplicates` groups two distinct photos
together iff they carry the *identical* non-empty perceptual hash (Hamming
distance 0); `DHASH_THRESHOLD` is never consulted, there is no union-find,
and photos whose hashes differ in even one bit are never grouped. -/
theorem C1_amended (photos : List (Nat × Option (List Bool))) (a b : Nat)
    (hab : a ≠ b) :
    (∃ g ∈ findNearDuplicates photos, a ∈ g ∧ b ∈ g) ↔
      ∃ h, h ≠ [] ∧ (a, some h) ∈ photos ∧ (b, some h) ∈ photos := by
  constructor
  · intro ⟨g, hg, hag, hbg⟩
    obtain ⟨h, hne, hall⟩ := findNearDuplicates_group_hash hg
    exact ⟨h, hne, hall a hag, hall b hbg⟩
  · intro ⟨h, hne, hpa, hpb⟩
    have hva : (a, h) ∈ validHashRows photos := validHashRows_mem.2 ⟨hpa, hne⟩
    have hvb : (b, h) ∈ validHashRows photos := validHashRows_mem.2 ⟨hpb, hne⟩
    have hma : (h, a) ∈ (validHashRows photos).map (fun p => (p.2, p.1)) :=
      mem_swapMap.2 hva
    have hmb : (h, b) ∈ (validHashRows photos).map (fun p => (p.2, p.1)) :=
      mem_swapMap.2 hvb
    obtain ⟨vs, hvs, havs⟩ := groupPairs_complete hma
    obtain ⟨vs', hvs', hbvs'⟩ := groupPairs_complete hmb
    have heq : vs = vs' := mem_unique_of_keysNodup (groupPairs_keysNodup _) hvs hvs'
    rw [← heq] at hbvs'
    refine ⟨vs, findNearDuplicates_group_iff.2
      ⟨h, hvs, one_lt_length_of_two_mem hab havs hbvs'⟩, havs, hbvs'⟩

/-- Witness for `C1_amended` at a concrete input: two photos sharing one
exact hash are reported in a common duplicate group. -/
theorem C1_amended_witness :
    ∃ g ∈ findNearDuplicates [(1, some [true, false]), (2, some [true, false])],
      1 ∈ g ∧ 2 ∈ g :=
  (C1_amended [(1, some [true, false]), (2, some [true, false])] 1 2
    (by decide)).2 ⟨[true, false], by decide, by decide, by decide⟩

/-- C9.  The groups returned by `find_near_duplicates` are pairwise
disjoint (given distinct photo ids), each has at least two members, and all
members of one group carry the same non-empty hash. -/
theorem C9_group_invariants (photos : List (Nat × Option (List Bool)))
    (hnd : (photos.map Prod.fst).Nodup) :
    List.Pairwise (fun g1 g2 => ∀ x ∈ g1, x ∉ g2) (findNearDuplicates photos) ∧
      (∀ g ∈ findNearDuplicates photos, 2 ≤ g.length) ∧
      (∀ g ∈ findNearDuplicates photos, ∃ h, h ≠ [] ∧ ∀ i ∈ g, (i, some h) ∈ photos) := by
  refine ⟨?_, ?_, ?_⟩
  · -- pairwise disjointness
    unfold findNearDuplicates
    rw [List.pairwise_map]
    refine List.Pairwise.filter _ ?_
    have hkeys0 := groupPairs_keysNodup ((validHashRows photos).map (fun p => (p.2, p.1)))
    unfold List.Nodup at hkeys0
    rw [List.pairwise_map] at hkeys0
    refine hkeys0.imp_of_mem ?_
    intro e1 e2 h1 h2 hkne x hx1 hx2
    have hr1 := groupPairs_sound h1 x hx1
    have hr2 := groupPairs_sound h2 x hx2
    have hp1 := (validHashRows_mem.1 (mem_swapMap.1 hr1)).1
    have hp2 := (validHashRows_mem.1 (mem_swapMap.1 hr2)).1
    have := photos_hash_unique hnd hp1 hp2
    exact hkne (Option.some.injEq _ _ ▸ this)
  · intro g hg
    obtain ⟨h, _, hlen⟩ := findNearDuplicates_group_iff.1 hg
    omega
  · intro g hg
    exact findNearDuplicates_group_hash hg

/-- Witness for `C9_group_invariants` at a concrete input with two duplicate
pairs. -/
theorem C9_group_invariants_witness :
    List.Pairwise (fun g1 g2 => ∀ x ∈ g1, x ∉ g2)
        (findNearDuplicates [(1, some [true]), (2, some [true]),
          (3, some [false]), (4, some [false])]) ∧
      (∀ g ∈ findNearDuplicates [(1, some [true]), (2, some [true]),
          (3, some [false]), (4, some [false])], 2 ≤ g.length) ∧
      (∀ g ∈ findNearDuplicates [(1, some [true]), (2, some [true]),
          (3, some [false]), (4, some [false])],
        ∃ h, h ≠ [] ∧ ∀ i ∈ g, (i, some h) ∈ [(1, some [true]), (2, some [true]),
          (3, some [false]), (4, some [false])]) :=
  C9_group_invariants _ (by decide)

/-! ## Embedding normalization (index_photos.py line 695)

`embeddings = embeddings / np.linalg.norm(embeddings, axis=1, keepdims=True)`
divides every component of a row by the row's L2 norm, with no guard.
Components are modeled as rationals; a numpy float division whose divisor
is zero yields a non-numeric IEEE value (NaN for `0/0`, ±Inf otherwise),
modeled here as `none`.  Rationals have no square root, so the norm is an
abstract function `sqrt` of the sum of squares, constrained only by
`sqrt s = 0 ↔ s = 0` — the true square root satisfies this, and it is the
only property of the norm the guard question depends on. -/

/-- Sum of squares of a row, the square of `np.linalg.norm` of the row. -/
def sumSq (v : List Rat) : Rat := (v.map (fun x => x * x)).sum

/-- IEEE-style scalar division: a zero divisor produces a non-numeric value
(`none`); otherwise the exact quotient. -/
def npDiv (x d : Rat) : Option Rat := if d = 0 then none else some (x / d)

/-- One row of `embeddings / np.linalg.norm(embeddings, axis=1, keepdims=True)`:
every component is divided by the row norm `sqrt (sumSq v)`, unconditionally. -/
def normalizeRow (sqrt : Rat → Rat) (v : List Rat) : List (Option Rat) :=
  v.map (fun x => npDiv x (sqrt (sumSq v)))

/-- The guarded normalization described by the spec: a row with zero norm is
left un-normalized, all other rows are divided by their norm. -/
def normalizeRowGuarded (sqrt : Rat → Rat) (v : List Rat) : List (Option Rat) :=
  if sqrt (sumSq v) = 0 then v.map some else normalizeRow sqrt v

/-- C6, counterexample.  The code has no divide-by-zero guard: the
zero embedding is divided by its zero norm, producing non-numeric (NaN)
components, whereas the spec's guarded normalization would leave it
untouched.  (`id` is a legitimate norm witness here: it vanishes exactly
on zero, like the true square root.) -/
theorem C6_counterexample :
    normalizeRow id [0] = [none] ∧
      normalizeRowGuarded id [0] = [some 0] ∧
      normalizeRow id [0] ≠ normalizeRowGuarded id [0] := by
  refine ⟨?_, ?_, ?_⟩ <;> simp [normalizeRow, normalizeRowGuarded, npDiv, sumSq]

/-- C6, amended.  The division by the norm is *not* guarded: for every
row whose sum of squares is zero (i.e. zero norm), every component of the
normalized row is non-numeric — the division by zero does happen; rows of
nonzero norm are divided without any zero division.  `sqrt` is any function
vanishing exactly at zero, as the real square root does. -/
theorem C6_amended (sqrt : Rat → Rat) (hsqrt : ∀ s, sqrt s = 0 ↔ s = 0)
    (v : List Rat) :
    (sumSq v = 0 → normalizeRow sqrt v = v.map (fun _ => none)) ∧
      (sumSq v ≠ 0 → ∀ x ∈ normalizeRow sqrt v, x ≠ none) := by
  constructor
  · intro h0
    have : sqrt (sumSq v) = 0 := (hsqrt _).2 h0
    simp [normalizeRow, npDiv, this]
  · intro hne x hx hxn
    have hs : sqrt (sumSq v) ≠ 0 := fun h => hne ((hsqrt _).1 h)
    obtain ⟨y, _, he⟩ := List.mem_map.1 hx
    rw [← he] at hxn
    simp [npDiv, hs] at hxn

/-- Witness for `C6_amended`: the zero row `[0, 0]` becomes all-NaN, and the
row `[3, 4]` (norm 5) is divided with no zero division. -/
theorem C6_amended_witness :
    normalizeRow id [(0 : Rat), 0] = [none, none] ∧
      ∀ x ∈ normalizeRow id [(3 : Rat), 4], x ≠ none :=
  ⟨(C6_amended id (fun _ => Iff.rfl) [(0 : Rat), 0]).1 (by norm_num [sumSq]),
    (C6_amended id (fun _ => Iff.rfl) [(3 : Rat), 4]).2 (by norm_num [sumSq])⟩

/-! ## `refine_clusters_by_faces` (index_photos.py lines 595-663)

Inputs: the photo ids (in row order), the DBSCAN label array (same order,
`-1` = noise), and the person sets (`photo_persons.get(pid, set())`, made
total as a function `pp : Nat → Finset Nat`).  The Python dict loops that
bucket photos by cluster label and by person set are `groupPairs` folds;
`new_labels[idx] = next_label` over `idx = photo_ids.index(pid)` is a
`List.set` at `List.indexOf`. -/

/-- The `set_groups` dictionary (lines 626-631): cluster members bucketed by
their exact person set (`frozenset(pset) if pset else frozenset()` is just
`frozenset(pset)`). -/
def setGroupsOf (pp : Nat → Finset Nat) (pids : List Nat) : List (Finset Nat × List Nat) :=
  groupPairs (pids.map (fun pid => (pp pid, pid)))

/-- Key of the largest bucket, `max(set_groups.values(), key=len)` followed by the lookup of its key
(lines 637-643): Python's `max` keeps the first maximum, so this is the key
of the first bucket of maximal size. -/
def pickLargest (gs : List (Finset Nat × List Nat)) : Finset Nat :=
  match gs with
  | [] => ∅
  | g :: rest =>
      (rest.foldl (fun best g2 => if best.2.length < g2.2.length then g2 else best) g).1

/-- Lines 658-660: `for pid in group_photos: new_labels[photo_ids.index(pid)] = next_label`. -/
def assignNewLabel (photo_ids : List Nat) (nl : List Int) (group : List Nat)
    (lab : Int) : List Int :=
  group.foldl (fun acc pid => acc.set (photo_ids.indexOf pid) lab) nl

/-- A non-dominant bucket is kept in the dominant cluster iff it *is* the
dominant one, or both person sets are non-empty and one contains the other
(the `if person_set and largest_set` guard at lines 652-654 skips the
subset test when either set is empty). -/
def keepSet (largest s : Finset Nat) : Prop :=
  s = largest ∨ (s ≠ ∅ ∧ largest ≠ ∅ ∧ (s ⊆ largest ∨ largest ⊆ s))

instance (largest s : Finset Nat) : Decidable (keepSet largest s) := by
  unfold keepSet; infer_instance

/-- The body of the loop over `set_groups.items()` (lines 646-661). -/
def splitStep (photo_ids : List Nat) (largest : Finset Nat)
    (st : List Int × Int) (g : Finset Nat × List Nat) : List Int × Int :=
  if g.1 = largest then st
  else if g.1 ≠ ∅ ∧ largest ≠ ∅ ∧ (g.1 ⊆ largest ∨ largest ⊆ g.1) then st
  else (assignNewLabel photo_ids st.1 g.2 st.2, st.2 + 1)

/-- The body of the loop over `cluster_photos_map.items()` (lines 613-661);
the state is `(new_labels, next_label)`. -/
def refineStep (photo_ids : List Nat) (pp : Nat → Finset Nat)
    (st : List Int × Int) (e : Int × List Nat) : List Int × Int :=
  if e.2.length ≤ 1 then st
  else if (e.2.map pp).all (fun s => decide (s = ∅)) then st
  else
    let set_groups := setGroupsOf pp e.2
    if set_groups.length = 1 then st
    else set_groups.foldl (splitStep photo_ids (pickLargest set_groups)) st

/-- Model of `max(labels)` (line 601); Python's `max` is undefined on an empty array
and the caller never passes one, so the `[]` value is arbitrary. -/
def labelsMax : List Int → Int
  | [] => 0
  | x :: xs => xs.foldl max x

/-- The `cluster_photos_map` dictionary (lines 604-610): photos bucketed by label, noise
(`-1`) skipped. -/
def clusterMapOf (photo_ids : List Nat) (labels : List Int) : List (Int × List Nat) :=
  groupPairs (((photo_ids.zip labels).filter (fun q => decide (q.2 ≠ -1))).map
    (fun q => (q.2, q.1)))

/-- Model of `refine_clusters_by_faces` (lines 595-663). -/
def refineClustersByFaces (photo_ids : List Nat) (labels : List Int)
    (pp : Nat → Finset Nat) : List Int :=
  ((clusterMapOf photo_ids labels).foldl (refineStep photo_ids pp)
    (labels, labelsMax labels + 1)).1

example :
    refineClustersByFaces [1, 2, 3] [0, 0, 0]
      (fun n => if n = 3 then ∅ else {1}) = [0, 0, 1] := by
  decide

example :
    refineClustersByFaces [1, 2, 3, 4] [0, 0, 0, -1]
      (fun n => if n = 1 then {1} else if n = 2 then {2} else if n = 3 then {1, 5} else ∅) =
      [0, 1, 0, -1] := by
  decide

-- ### Characterization of the refinement folds

theorem assignNewLabel_length (photo_ids : List Nat) (nl : List Int)
    (group : List Nat) (lab : Int) :
    (assignNewLabel photo_ids nl group lab).length = nl.length := by
  induction group generalizing nl with
  | nil => rfl
  | cons pid rest ih =>
      show (assignNewLabel photo_ids (nl.set (photo_ids.indexOf pid) lab) rest lab).length
        = nl.length
      rw [ih, List.length_set]

theorem assignNewLabel_getElem? (photo_ids : List Nat) (nl : List Int)
    (group : List Nat) (lab : Int) (i : Nat) :
    (assignNewLabel photo_ids nl group lab)[i]? = nl[i]? ∨
      ((assignNewLabel photo_ids nl group lab)[i]? = some lab ∧
        ∃ pid ∈ group, photo_ids.indexOf pid = i) := by
  induction group generalizing nl with
  | nil => exact Or.inl rfl
  | cons pid rest ih =>
      have step : assignNewLabel photo_ids nl (pid :: rest) lab
          = assignNewLabel photo_ids (nl.set (photo_ids.indexOf pid) lab) rest lab := rfl
      rw [step]
      rcases ih (nl.set (photo_ids.indexOf pid) lab) with h | ⟨h, pid', hmem, hidx⟩
      · rw [h, List.getElem?_set]
        by_cases hidx : photo_ids.indexOf pid = i
        · by_cases hlt : photo_ids.indexOf pid < nl.length
          · exact Or.inr ⟨by simp [hidx, hidx ▸ hlt], pid, List.mem_cons_self _ _, hidx⟩
          · refine Or.inl ?_
            simp only [if_pos hidx, if_neg hlt]
            rw [hidx] at hlt
            rw [List.getElem?_eq_none]
            omega
        · simp [hidx]
      · exact Or.inr ⟨h, pid', List.mem_cons_of_mem _ hmem, hidx⟩

theorem assignNewLabel_frame {photo_ids : List Nat} {nl : List Int}
    {group : List Nat} {lab : Int} {i : Nat}
    (h : ∀ pid ∈ group, photo_ids.indexOf pid ≠ i) :
    (assignNewLabel photo_ids nl group lab)[i]? = nl[i]? := by
  rcases assignNewLabel_getElem? photo_ids nl group lab i with h' | ⟨_, pid, hmem, hidx⟩
  · exact h'
  · exact absurd hidx (h pid hmem)

theorem splitStep_of_keep {photo_ids : List Nat} {largest : Finset Nat}
    {st : List Int × Int} {g : Finset Nat × List Nat}
    (h : keepSet largest g.1) : splitStep photo_ids largest st g = st := by
  unfold splitStep
  rcases h with h | h
  · rw [if_pos h]
  · by_cases h1 : g.1 = largest
    · rw [if_pos h1]
    · rw [if_neg h1, if_pos h]

theorem splitStep_of_not_keep {photo_ids : List Nat} {largest : Finset Nat}
    {st : List Int × Int} {g : Finset Nat × List Nat}
    (h : ¬ keepSet largest g.1) :
    splitStep photo_ids largest st g =
      (assignNewLabel photo_ids st.1 g.2 st.2, st.2 + 1) := by
  unfold splitStep
  have h1 : ¬ g.1 = largest := fun he => h (Or.inl he)
  have h2 : ¬ (g.1 ≠ ∅ ∧ largest ≠ ∅ ∧ (g.1 ⊆ largest ∨ largest ⊆ g.1)) :=
    fun hc => h (Or.inr hc)
  rw [if_neg h1, if_neg h2]

/-- The inner fold over `set_groups`: `next_label` never decreases, the label
list keeps its length, and an index either keeps its value or receives a
fresh label in `[st.2, result.2)` for a photo of one of the buckets. -/
theorem splitFold_spec (photo_ids : List Nat) (largest : Finset Nat)
    (gs : List (Finset Nat × List Nat)) (st : List Int × Int) (i : Nat) :
    st.2 ≤ (gs.foldl (splitStep photo_ids largest) st).2 ∧
      (gs.foldl (splitStep photo_ids largest) st).1.length = st.1.length ∧
      ((gs.foldl (splitStep photo_ids largest) st).1[i]? = st.1[i]? ∨
        ∃ v, (gs.foldl (splitStep photo_ids largest) st).1[i]? = some v ∧
          st.2 ≤ v ∧ v < (gs.foldl (splitStep photo_ids largest) st).2 ∧
          ∃ g ∈ gs, ∃ pid ∈ g.2, photo_ids.indexOf pid = i) := by
  induction gs generalizing st with
  | nil => exact ⟨le_refl _, rfl, Or.inl rfl⟩
  | cons g rest ih =>
      rw [List.foldl_cons]
      by_cases hk : keepSet largest g.1
      · rw [splitStep_of_keep hk]
        obtain ⟨h1, h2, h3⟩ := ih st
        refine ⟨h1, h2, ?_⟩
        rcases h3 with h3 | ⟨v, hv, hle, hlt, g', hg', hrest⟩
        · exact Or.inl h3
        · exact Or.inr ⟨v, hv, hle, hlt, g', List.mem_cons_of_mem _ hg', hrest⟩
      · rw [splitStep_of_not_keep hk]
        obtain ⟨h1, h2, h3⟩ := ih (assignNewLabel photo_ids st.1 g.2 st.2, st.2 + 1)
        refine ⟨by omega, by rw [h2, assignNewLabel_length], ?_⟩
        rcases h3 with h3 | ⟨v, hv, hle, hlt, g', hg', hrest⟩
        · rw [h3]
          rcases assignNewLabel_getElem? photo_ids st.1 g.2 st.2 i with
            h4 | ⟨h4, pid, hmem, hidx⟩
          · exact Or.inl h4
          · exact Or.inr ⟨st.2, h4, le_refl _, by omega,
              g, List.mem_cons_self _ _, pid, hmem, hidx⟩
        · exact Or.inr ⟨v, hv, by omega, hlt, g', List.mem_cons_of_mem _ hg', hrest⟩

theorem setGroupsOf_sound {pp : Nat → Finset Nat} {pids : List Nat}
    {s : Finset Nat} {vs : List Nat} (h : (s, vs) ∈ setGroupsOf pp pids) :
    ∀ pid ∈ vs, pp pid = s ∧ pid ∈ pids := by
  intro pid hpid
  have := groupPairs_sound h pid hpid
  obtain ⟨q, hq, he⟩ := List.mem_map.1 this
  rw [Prod.mk.injEq] at he
  exact ⟨he.2 ▸ he.1, he.2 ▸ hq⟩

theorem setGroupsOf_complete (pp : Nat → Finset Nat) {pids : List Nat}
    {pid : Nat} (h : pid ∈ pids) :
    ∃ vs, (pp pid, vs) ∈ setGroupsOf pp pids ∧ pid ∈ vs :=
  groupPairs_complete (List.mem_map.2 ⟨pid, h, rfl⟩)

/-- The outer-loop body: `next_label` never decreases, length is kept, and
an index either keeps its value or receives a fresh label in
`[st.2, result.2)` for a photo belonging to the processed cluster. -/
theorem refineStep_spec (photo_ids : List Nat) (pp : Nat → Finset Nat)
    (st : List Int × Int) (e : Int × List Nat) (i : Nat) :
    st.2 ≤ (refineStep photo_ids pp st e).2 ∧
      (refineStep photo_ids pp st e).1.length = st.1.length ∧
      ((refineStep photo_ids pp st e).1[i]? = st.1[i]? ∨
        ∃ v, (refineStep photo_ids pp st e).1[i]? = some v ∧
          st.2 ≤ v ∧ v < (refineStep photo_ids pp st e).2 ∧
          ∃ pid ∈ e.2, photo_ids.indexOf pid = i) := by
  unfold refineStep
  by_cases h1 : e.2.length ≤ 1
  · simp only [if_pos h1]
    exact ⟨le_refl _, trivial, Or.inl trivial⟩
  · simp only [if_neg h1]
    by_cases h2 : (e.2.map pp).all (fun s => decide (s = ∅))
    · simp only [if_pos h2]
      exact ⟨le_refl _, trivial, Or.inl trivial⟩
    · simp only [if_neg h2]
      by_cases h3 : (setGroupsOf pp e.2).length = 1
      · simp only [if_pos h3]
        exact ⟨le_refl _, trivial, Or.inl trivial⟩
      · simp only [if_neg h3]
        obtain ⟨hle, hlen, hcase⟩ := splitFold_spec photo_ids
          (pickLargest (setGroupsOf pp e.2)) (setGroupsOf pp e.2) st i
        refine ⟨hle, hlen, ?_⟩
        rcases hcase with hc | ⟨v, hv, hvle, hvlt, g, hg, pid, hpid, hidx⟩
        · exact Or.inl hc
        · exact Or.inr ⟨v, hv, hvle, hvlt, pid,
            (setGroupsOf_sound hg pid hpid).2, hidx⟩

theorem refineStep_skip_len {photo_ids : List Nat} {pp : Nat → Finset Nat}
    {st : List Int × Int} {e : Int × List Nat} (h : e.2.length ≤ 1) :
    refineStep photo_ids pp st e = st := by
  unfold refineStep
  rw [if_pos h]

theorem refineStep_skip_empty {photo_ids : List Nat} {pp : Nat → Finset Nat}
    {st : List Int × Int} {e : Int × List Nat} (h : ∀ pid ∈ e.2, pp pid = ∅) :
    refineStep photo_ids pp st e = st := by
  unfold refineStep
  by_cases h1 : e.2.length ≤ 1
  · rw [if_pos h1]
  · rw [if_neg h1, if_pos ?_]
    rw [List.all_eq_true]
    intro s hs
    obtain ⟨pid, hpid, he⟩ := List.mem_map.1 hs
    rw [← he]
    exact decide_eq_true (h pid hpid)

theorem clusterMapOf_sound {photo_ids : List Nat} {labels : List Int}
    {l : Int} {vs : List Nat} (h : (l, vs) ∈ clusterMapOf photo_ids labels) :
    l ≠ -1 ∧ ∀ pid ∈ vs, (pid, l) ∈ photo_ids.zip labels := by
  have hmem : ∀ pid ∈ vs, (pid, l) ∈ (photo_ids.zip labels).filter
      (fun q => decide (q.2 ≠ -1)) := by
    intro pid hpid
    have hs := groupPairs_sound h pid hpid
    obtain ⟨q, hq, he⟩ := List.mem_map.1 hs
    rw [Prod.mk.injEq] at he
    have hq' : q = (pid, l) := by
      rw [Prod.ext_iff]
      exact ⟨he.2, he.1⟩
    rw [← hq']
    exact hq
  constructor
  · obtain ⟨pid, hpid⟩ := List.exists_mem_of_ne_nil vs (groupPairs_bucket_ne_nil h)
    have := List.of_mem_filter (hmem pid hpid)
    simpa using this
  · intro pid hpid
    exact List.mem_of_mem_filter (hmem pid hpid)

theorem clusterMapOf_complete {photo_ids : List Nat} {labels : List Int}
    {pid : Nat} {l : Int} (h : (pid, l) ∈ photo_ids.zip labels) (hl : l ≠ -1) :
    ∃ vs, (l, vs) ∈ clusterMapOf photo_ids labels ∧ pid ∈ vs := by
  refine groupPairs_complete (List.mem_map.2 ⟨(pid, l), ?_, rfl⟩)
  exact List.mem_filter.2 ⟨h, by simpa using hl⟩

/-- Every member of a zip is found at some common index. -/
theorem zip_mem_index {photo_ids : List Nat} {labels : List Int} {pid : Nat} {l : Int}
    (h : (pid, l) ∈ photo_ids.zip labels) :
    ∃ j : Nat, photo_ids[j]? = some pid ∧ labels[j]? = some l := by
  obtain ⟨j, hj⟩ := List.mem_iff_getElem?.1 h
  obtain ⟨h1, h2⟩ := List.getElem?_zip_eq_some.1 hj
  exact ⟨j, h1, h2⟩

theorem map_fst_zip_sublist {γ δ : Type} (l1 : List γ) (l2 : List δ) :
    ((l1.zip l2).map Prod.fst).Sublist l1 := by
  induction l1 generalizing l2 with
  | nil => simp
  | cons a t ih =>
      cases l2 with
      | nil => simp
      | cons b t2 =>
          rw [List.zip_cons_cons, List.map_cons]
          exact (ih t2).cons₂ a

/-- The members of a cluster bucket are distinct photo ids. -/
theorem clusterMapOf_bucketNodup {photo_ids : List Nat} {labels : List Int}
    (hnd : photo_ids.Nodup)
    {l : Int} {vs : List Nat} (h : (l, vs) ∈ clusterMapOf photo_ids labels) :
    vs.Nodup := by
  refine groupPairs_bucketNodup ?_ h
  have heq : (((photo_ids.zip labels).filter (fun q => decide (q.2 ≠ -1))).map
      (fun q => (q.2, q.1))).map Prod.snd =
      ((photo_ids.zip labels).filter (fun q => decide (q.2 ≠ -1))).map Prod.fst := by
    rw [List.map_map]
    rfl
  rw [heq]
  have hsub : ((photo_ids.zip labels).filter (fun q => decide (q.2 ≠ -1))).map Prod.fst
      |>.Sublist ((photo_ids.zip labels).map Prod.fst) :=
    List.Sublist.map Prod.fst (List.filter_sublist _)
  refine List.Nodup.sublist hsub (List.Nodup.sublist (map_fst_zip_sublist _ _) hnd)

theorem length_le_one_of_nodup_of_const {l : List Nat} (hnd : l.Nodup)
    {c : Nat} (h : ∀ x ∈ l, x = c) : l.length ≤ 1 := by
  match l, hnd with
  | [], _ => simp
  | [x], _ => simp
  | x :: y :: t, hnd =>
      exfalso
      rw [List.nodup_cons] at hnd
      have hx : x = c := h x (List.mem_cons_self _ _)
      have hy : y = c := h y (List.mem_cons_of_mem _ (List.mem_cons_self _ _))
      exact hnd.1 (by rw [hx, hy]; exact List.mem_cons_self _ _)

/-- The outer fold keeps an index untouched whenever, for each processed
cluster, either the whole step is a no-op or none of the cluster's photos
maps to that index. -/
theorem refineFold_frame (photo_ids : List Nat) (pp : Nat → Finset Nat)
    (entries : List (Int × List Nat)) (st : List Int × Int) (i : Nat)
    (h : ∀ e ∈ entries, (∀ st', refineStep photo_ids pp st' e = st') ∨
      (∀ pid ∈ e.2, photo_ids.indexOf pid ≠ i)) :
    (entries.foldl (refineStep photo_ids pp) st).1[i]? = st.1[i]? := by
  induction entries generalizing st with
  | nil => rfl
  | cons e rest ih =>
      rw [List.foldl_cons]
      rcases h e (List.mem_cons_self _ _) with hskip | hframe
      · rw [hskip st]
        exact ih st (fun e' he' => h e' (List.mem_cons_of_mem _ he'))
      · rw [ih (refineStep photo_ids pp st e)
          (fun e' he' => h e' (List.mem_cons_of_mem _ he'))]
        rcases (refineStep_spec photo_ids pp st e i).2.2 with hc | ⟨v, _, _, _, pid, hpid, hidx⟩
        · exact hc
        · exact absurd hidx (hframe pid hpid)

/-- C10.  `refine_clusters_by_faces` leaves a photo's label unchanged
when the photo is noise (`-1`), or its cluster is a singleton, or every
member of its cluster has an empty person set. -/
theorem C10_label_frame (photo_ids : List Nat) (labels : List Int)
    (pp : Nat → Finset Nat) (hnd : photo_ids.Nodup)
    (hlen : photo_ids.length = labels.length)
    (i : Nat) (hi : i < labels.length)
    (hcond : labels.get ⟨i, hi⟩ = -1 ∨
      (∀ j (hj : j < labels.length), labels.get ⟨j, hj⟩ = labels.get ⟨i, hi⟩ → j = i) ∨
      (∀ j (hj : j < labels.length), labels.get ⟨j, hj⟩ = labels.get ⟨i, hi⟩ →
        pp (photo_ids.get ⟨j, hlen.symm ▸ hj⟩) = ∅)) :
    (refineClustersByFaces photo_ids labels pp)[i]? = some (labels.get ⟨i, hi⟩) := by
  unfold refineClustersByFaces
  have hgeti : labels[i]? = some (labels.get ⟨i, hi⟩) := by
    rw [List.get_eq_getElem]
    exact List.getElem?_eq_getElem hi
  have hframe : ∀ e ∈ clusterMapOf photo_ids labels,
      (∀ st', refineStep photo_ids pp st' e = st') ∨
        (∀ pid ∈ e.2, photo_ids.indexOf pid ≠ i) := by
    intro e he
    obtain ⟨hl, hmem⟩ := clusterMapOf_sound he
    -- a member of `e` sits at index `indexOf pid`, whose label is the key `e.1`
    have hidx : ∀ pid ∈ e.2,
        photo_ids[photo_ids.indexOf pid]? = some pid ∧
        labels[photo_ids.indexOf pid]? = some e.1 := by
      intro pid hpid
      obtain ⟨j, hpdq, hlabq⟩ := zip_mem_index (hmem pid hpid)
      obtain ⟨hj2, hpd⟩ := List.getElem?_eq_some.1 hpdq
      have hix : photo_ids.indexOf pid = j := by
        rw [← hpd]
        exact List.indexOf_getElem hnd j hj2
      rw [hix]
      exact ⟨hpdq, hlabq⟩
    rcases hcond with hc | hc | hc
    · -- noise photo: no cluster member maps to index i
      refine Or.inr (fun pid hpid hix => ?_)
      obtain ⟨_, hlab⟩ := hidx pid hpid
      rw [hix, hgeti] at hlab
      exact hl ((Option.some.inj hlab).symm.trans hc)
    · -- singleton cluster
      by_cases hkey : e.1 = labels.get ⟨i, hi⟩
      · -- this is i's own cluster: its bucket has at most one member, skip
        refine Or.inl (fun st' => refineStep_skip_len ?_)
        have hgi2 : i < photo_ids.length := by omega
        refine length_le_one_of_nodup_of_const
          (clusterMapOf_bucketNodup hnd he) (c := photo_ids.get ⟨i, hgi2⟩) ?_
        intro pid hpid
        obtain ⟨hpd, hlab⟩ := hidx pid hpid
        obtain ⟨hj, hlab'⟩ := List.getElem?_eq_some.1 hlab
        have hji : photo_ids.indexOf pid = i := by
          refine hc _ hj ?_
          rw [List.get_eq_getElem, hlab', hkey]
        rw [hji] at hpd
        have : photo_ids[i] = pid := (List.getElem?_eq_some.1 hpd).2
        rw [← this, List.get_eq_getElem]
      · -- a different cluster: none of its members sits at index i
        refine Or.inr (fun pid hpid hix => ?_)
        obtain ⟨_, hlab⟩ := hidx pid hpid
        rw [hix, hgeti] at hlab
        exact hkey (Option.some.inj hlab).symm
    · -- all-empty cluster
      by_cases hkey : e.1 = labels.get ⟨i, hi⟩
      · refine Or.inl (fun st' => refineStep_skip_empty ?_)
        intro pid hpid
        obtain ⟨hpd, hlab⟩ := hidx pid hpid
        obtain ⟨hj, hlab'⟩ := List.getElem?_eq_some.1 hlab
        have := hc _ hj (by rw [List.get_eq_getElem, hlab', hkey])
        have hpd' : photo_ids[photo_ids.indexOf pid] = pid :=
          (List.getElem?_eq_some.1 hpd).2
        rw [← hpd']
        rw [List.get_eq_getElem] at this
        exact this
      · refine Or.inr (fun pid hpid hix => ?_)
        obtain ⟨_, hlab⟩ := hidx pid hpid
        rw [hix, hgeti] at hlab
        exact hkey (Option.some.inj hlab).symm
  rw [refineFold_frame photo_ids pp _ _ i hframe]
  exact hgeti

/-- Witness for `C10_label_frame`: a noise photo, a singleton cluster and an
all-faceless cluster all keep their labels. -/
theorem C10_label_frame_witness :
    (refineClustersByFaces [1, 2, 3, 4] [-1, 5, 7, 7] (fun n => if n = 2 then {1} else ∅))[0]?
        = some (-1) ∧
      (refineClustersByFaces [1, 2, 3, 4] [-1, 5, 7, 7]
        (fun n => if n = 2 then {1} else ∅))[1]? = some 5 ∧
      (refineClustersByFaces [1, 2, 3, 4] [-1, 5, 7, 7]
        (fun n => if n = 2 then {1} else ∅))[2]? = some 7 := by
  refine ⟨?_, ?_, ?_⟩
  · exact C10_label_frame [1, 2, 3, 4] [-1, 5, 7, 7] _ (by decide) (by decide) 0
      (by decide) (Or.inl (by decide))
  · exact C10_label_frame [1, 2, 3, 4] [-1, 5, 7, 7] _ (by decide) (by decide) 1
      (by decide) (Or.inr (Or.inl (by decide)))
  · exact C10_label_frame [1, 2, 3, 4] [-1, 5, 7, 7] _ (by decide) (by decide) 2
      (by decide) (Or.inr (Or.inr (by decide)))

-- ### C3: refinement never merges distinct clusters

theorem foldl_max_le_init (xs : List Int) (a : Int) : a ≤ xs.foldl max a := by
  induction xs generalizing a with
  | nil => exact le_refl _
  | cons y ys ih => exact le_trans (le_max_left a y) (ih (max a y))

theorem foldl_max_le_mem (xs : List Int) (a : Int) : ∀ x ∈ xs, x ≤ xs.foldl max a := by
  induction xs generalizing a with
  | nil => intro x hx; cases hx
  | cons y ys ih =>
      intro x hx
      rcases List.mem_cons.1 hx with h | h
      · rw [h, List.foldl_cons]
        exact le_trans (le_max_right a y) (foldl_max_le_init ys (max a y))
      · exact ih (max a y) x h

theorem labelsMax_ge (labels : List Int) : ∀ x ∈ labels, x ≤ labelsMax labels := by
  intro x hx
  match labels, hx with
  | y :: ys, hx =>
      rcases List.mem_cons.1 hx with h | h
      · rw [h]
        exact foldl_max_le_init ys y
      · exact foldl_max_le_mem ys y x h

/-- A member of a cluster bucket sits at index `photo_ids.index(pid)`, and the
label there is the bucket's key. -/
theorem clusterMap_member_label {photo_ids : List Nat} {labels : List Int}
    (hnd : photo_ids.Nodup) {e : Int × List Nat}
    (he : e ∈ clusterMapOf photo_ids labels) {pid : Nat} (hpid : pid ∈ e.2) :
    photo_ids[photo_ids.indexOf pid]? = some pid ∧
      labels[photo_ids.indexOf pid]? = some e.1 := by
  obtain ⟨_, hmem⟩ := clusterMapOf_sound he
  obtain ⟨j, hpdq, hlabq⟩ := zip_mem_index (hmem pid hpid)
  obtain ⟨hj2, hpd⟩ := List.getElem?_eq_some.1 hpdq
  have hix : photo_ids.indexOf pid = j := by
    rw [← hpd]
    exact List.indexOf_getElem hnd j hj2
  rw [hix]
  exact ⟨hpdq, hlabq⟩

/-- The invariant carried through the outer refinement fold: `next_label`
stays above every original label, the list keeps its length, every entry is
either its original label or a fresh label below `next_label`, and indices
with distinct original labels keep distinct current labels. -/
def RefineInv (photo_ids : List Nat) (labels : List Int) (st : List Int × Int) : Prop :=
  labelsMax labels < st.2 ∧ st.1.length = labels.length ∧
    (∀ i : Nat, i < labels.length →
      st.1[i]? = labels[i]? ∨
        ∃ v, st.1[i]? = some v ∧ labelsMax labels < v ∧ v < st.2) ∧
    (∀ i j : Nat, i < labels.length → j < labels.length →
      labels[i]? ≠ labels[j]? → st.1[i]? ≠ st.1[j]?)

theorem RefineInv_step {photo_ids : List Nat} {labels : List Int}
    {pp : Nat → Finset Nat} (hnd : photo_ids.Nodup)
    {e : Int × List Nat} (he : e ∈ clusterMapOf photo_ids labels)
    {st : List Int × Int} (hInv : RefineInv photo_ids labels st) :
    RefineInv photo_ids labels (refineStep photo_ids pp st e) := by
  obtain ⟨hmax, hlen, hrange, hinj⟩ := hInv
  have hspec := fun i => refineStep_spec photo_ids pp st e i
  obtain ⟨hle, hlen', _⟩ := hspec 0
  refine ⟨by omega, by rw [hlen']; exact hlen, ?_, ?_⟩
  · intro i hi
    rcases (hspec i).2.2 with hc | ⟨v, hv, hvle, hvlt, _⟩
    · rw [hc]
      rcases hrange i hi with h | ⟨v, hv, h1, h2⟩
      · exact Or.inl h
      · exact Or.inr ⟨v, hv, h1, by omega⟩
    · exact Or.inr ⟨v, hv, by omega, hvlt⟩
  · intro i j hi hj hij
    -- a still-original index holds a value `< st.2`
    have hsmall : ∀ k : Nat, k < labels.length →
        (refineStep photo_ids pp st e).1[k]? = st.1[k]? →
        ∃ w, (refineStep photo_ids pp st e).1[k]? = some w ∧ w < st.2 := by
      intro k hk hkeep
      rcases hrange k hk with h | ⟨w, hw, h1, h2⟩
      · have hkval : labels[k]? = some (labels.get ⟨k, hk⟩) := by
          rw [List.get_eq_getElem]
          exact List.getElem?_eq_getElem hk
        refine ⟨labels.get ⟨k, hk⟩, by rw [hkeep, h, hkval], ?_⟩
        have := labelsMax_ge labels (labels.get ⟨k, hk⟩) (labels.get_mem _ _)
        omega
      · exact ⟨w, by rw [hkeep, hw], by omega⟩
    rcases (hspec i).2.2 with hci | ⟨v, hvi, hvile, hvilt, pidi, hpidi, hidxi⟩ <;>
      rcases (hspec j).2.2 with hcj | ⟨w, hvj, hvjle, hvjlt, pidj, hpidj, hidxj⟩
    · rw [hci, hcj]
      exact hinj i j hi hj hij
    · -- j got a fresh label ≥ st.2, i kept a label < st.2
      obtain ⟨w', hw', hlt⟩ := hsmall i hi hci
      rw [hw', hvj]
      intro hcontra
      have : w' = w := Option.some.inj hcontra
      omega
    · obtain ⟨w', hw', hlt⟩ := hsmall j hj hcj
      rw [hw', hvi]
      intro hcontra
      have : v = w' := Option.some.inj hcontra
      omega
    · -- both fresh: both indices belong to cluster `e`, so their original
      -- labels agree, contradicting `hij`
      exfalso
      have h1 := (clusterMap_member_label hnd he hpidi).2
      have h2 := (clusterMap_member_label hnd he hpidj).2
      rw [hidxi] at h1
      rw [hidxj] at h2
      exact hij (h1.trans h2.symm)

theorem RefineInv_fold {photo_ids : List Nat} {labels : List Int}
    (pp : Nat → Finset Nat) (hnd : photo_ids.Nodup)
    (entries : List (Int × List Nat))
    (hsub : ∀ e ∈ entries, e ∈ clusterMapOf photo_ids labels)
    {st : List Int × Int} (hInv : RefineInv photo_ids labels st) :
    RefineInv photo_ids labels (entries.foldl (refineStep photo_ids pp) st) := by
  induction entries generalizing st with
  | nil => exact hInv
  | cons e rest ih =>
      rw [List.foldl_cons]
      exact ih (fun e' he' => hsub e' (List.mem_cons_of_mem _ he'))
        (RefineInv_step hnd (hsub e (List.mem_cons_self _ _)) hInv)

/-- C3.  `refine_clusters_by_faces` never merges: two photos carrying
distinct labels before refinement carry distinct labels afterwards.  New
labels start at `max(labels) + 1` and each is used for exactly one bucket of
one cluster, so a fresh label can never collide with an old one nor be
shared across two previously distinct clusters. -/
theorem C3_refine_no_merge (photo_ids : List Nat) (labels : List Int)
    (pp : Nat → Finset Nat) (hnd : photo_ids.Nodup)
    (hlen : photo_ids.length = labels.length)
    (i j : Nat) (hi : i < labels.length) (hj : j < labels.length)
    (hij : labels[i]? ≠ labels[j]?) :
    (refineClustersByFaces photo_ids labels pp)[i]? ≠
      (refineClustersByFaces photo_ids labels pp)[j]? := by
  have hInv0 : RefineInv photo_ids labels (labels, labelsMax labels + 1) :=
    ⟨by omega, rfl, fun i hi => Or.inl rfl, fun i j hi hj hij => hij⟩
  have hfold := RefineInv_fold pp hnd (clusterMapOf photo_ids labels)
    (fun e he => he) hInv0
  exact hfold.2.2.2 i j hi hj hij

/-- Witness for `C3_refine_no_merge`: photos in two distinct clusters stay
distinct after refinement. -/
theorem C3_refine_no_merge_witness :
    (refineClustersByFaces [1, 2] [0, 1] (fun _ => ∅))[0]? ≠
      (refineClustersByFaces [1, 2] [0, 1] (fun _ => ∅))[1]? :=
  C3_refine_no_merge [1, 2] [0, 1] (fun _ => ∅) (by decide) (by decide)
    0 1 (by decide) (by decide) (by decide)

-- ### C5: the split rule on one inconsistent cluster

theorem zip_replicate_eq_map (l : List Nat) :
    l.zip (List.replicate l.length (0 : Int)) = l.map (fun p => (p, (0 : Int))) := by
  induction l with
  | nil => rfl
  | cons a t ih =>
      rw [List.length_cons, List.replicate_succ, List.zip_cons_cons, List.map_cons, ih]

theorem foldl_max_replicate_zero (m : Nat) :
    (List.replicate m (0 : Int)).foldl max 0 = 0 := by
  induction m with
  | zero => rfl
  | succ k ih =>
      rw [List.replicate_succ, List.foldl_cons]
      simpa using ih

theorem labelsMax_replicate (n : Nat) (h : 1 ≤ n) :
    labelsMax (List.replicate n (0 : Int)) = 0 := by
  match n, h with
  | Nat.succ m, _ =>
      rw [List.replicate_succ]
      show (List.replicate m (0 : Int)).foldl max 0 = 0
      exact foldl_max_replicate_zero m

theorem groupPairs_const_aux {β : Type} (k : Int) :
    ∀ (l acc : List β),
      (l.map (fun v => (k, v))).foldl (fun m p => dictAppend m p.1 p.2) [(k, acc)] =
        [(k, acc ++ l)] := by
  intro l
  induction l with
  | nil => intro acc; simp
  | cons v t ih =>
      intro acc
      rw [List.map_cons, List.foldl_cons]
      have hstep : dictAppend [(k, acc)] k v = [(k, acc ++ [v])] := by
        simp [dictAppend]
      show (t.map (fun v => (k, v))).foldl (fun m p => dictAppend m p.1 p.2)
          (dictAppend [(k, acc)] k v) = _
      rw [hstep, ih (acc ++ [v]), List.append_assoc]
      rfl

theorem groupPairs_const {β : Type} (k : Int) (l : List β) (h : l ≠ []) :
    groupPairs (l.map (fun v => (k, v))) = [(k, l)] := by
  match l, h with
  | v :: t, _ =>
      unfold groupPairs
      rw [List.map_cons, List.foldl_cons]
      have hstep : dictAppend ([] : List (Int × List β)) k v = [(k, [v])] := rfl
      show (t.map (fun v => (k, v))).foldl (fun m p => dictAppend m p.1 p.2)
          (dictAppend [] k v) = _
      rw [hstep, groupPairs_const_aux k t [v]]
      rfl

/-- With all labels `0`, the cluster map is the single bucket of all photos. -/
theorem clusterMapOf_const (pids : List Nat) (h : pids ≠ []) :
    clusterMapOf pids (List.replicate pids.length (0 : Int)) = [(0, pids)] := by
  unfold clusterMapOf
  rw [zip_replicate_eq_map]
  have hfilter : (pids.map (fun p => (p, (0 : Int)))).filter
      (fun q => decide (q.2 ≠ -1)) = pids.map (fun p => (p, (0 : Int))) := by
    rw [List.filter_eq_self]
    intro a ha
    obtain ⟨p, _, he⟩ := List.mem_map.1 ha
    rw [← he]
    simp
  rw [hfilter, List.map_map]
  have : ((fun q : Nat × Int => (q.2, q.1)) ∘ fun p => (p, (0 : Int))) =
      fun v => ((0 : Int), v) := rfl
  rw [this]
  exact groupPairs_const 0 pids h

theorem pickLargest_spec (gs : List (Finset Nat × List Nat)) (h : gs ≠ []) :
    ∃ vs, (pickLargest gs, vs) ∈ gs ∧ ∀ g ∈ gs, g.2.length ≤ vs.length := by
  match gs, h with
  | g :: rest, _ =>
      suffices H : ∀ (rest : List (Finset Nat × List Nat)) (g : Finset Nat × List Nat),
          (rest.foldl (fun best g2 => if best.2.length < g2.2.length then g2 else best) g)
            ∈ g :: rest ∧
          ∀ g' ∈ g :: rest, g'.2.length ≤
            (rest.foldl (fun best g2 => if best.2.length < g2.2.length then g2 else best) g).2.length by
        obtain ⟨hmem, hbound⟩ := H rest g
        exact ⟨(rest.foldl (fun best g2 => if best.2.length < g2.2.length then g2 else best) g).2,
          by unfold pickLargest; exact hmem, hbound⟩
      intro rest
      induction rest with
      | nil => intro g; exact ⟨List.mem_cons_self _ _, by simp⟩
      | cons g2 t ih =>
          intro g
          rw [List.foldl_cons]
          obtain ⟨hmem, hbound⟩ := ih (if g.2.length < g2.2.length then g2 else g)
          constructor
          · rcases List.mem_cons.1 hmem with h | h
            · rw [h]
              by_cases hc : g.2.length < g2.2.length
              · rw [if_pos hc]
                exact List.mem_cons_of_mem _ (List.mem_cons_self _ _)
              · rw [if_neg hc]
                exact List.mem_cons_self _ _
            · exact List.mem_cons_of_mem _ (List.mem_cons_of_mem _ h)
          · have hif : g.2.length ≤ (if g.2.length < g2.2.length then g2 else g).2.length
                ∧ g2.2.length ≤ (if g.2.length < g2.2.length then g2 else g).2.length := by
              by_cases hc : g.2.length < g2.2.length
              · rw [if_pos hc]
                omega
              · rw [if_neg hc]
                omega
            intro g' hg'
            rcases List.mem_cons.1 hg' with h | h
            · rw [h]
              exact le_trans hif.1 (hbound _ (List.mem_cons_self _ _))
            · rcases List.mem_cons.1 h with h | h
              · rw [h]
                exact le_trans hif.2 (hbound _ (List.mem_cons_self _ _))
              · exact hbound g' (List.mem_cons_of_mem _ h)

/-- With distinct photo ids, each `set_groups` bucket holds exactly the
cluster photos with that person set. -/
theorem setGroupsOf_exact {pp : Nat → Finset Nat} {pids : List Nat}
    {s : Finset Nat} {vs : List Nat} (h : (s, vs) ∈ setGroupsOf pp pids) :
    ∀ pid, pid ∈ vs ↔ (pid ∈ pids ∧ pp pid = s) := by
  intro pid
  constructor
  · intro hpid
    obtain ⟨h1, h2⟩ := setGroupsOf_sound h pid hpid
    exact ⟨h2, h1⟩
  · intro ⟨hmem, hpps⟩
    obtain ⟨vs', hvs', hpid⟩ := setGroupsOf_complete pp hmem
    rw [hpps] at hvs'
    rw [mem_unique_of_keysNodup (groupPairs_keysNodup _) h hvs']
    exact hpid

theorem indexOf_inj {pids : List Nat} (hnd : pids.Nodup) {p q : Nat}
    (hp : p ∈ pids) (hq : q ∈ pids)
    (h : pids.indexOf p = pids.indexOf q) : p = q := by
  have hp' : pids.indexOf p < pids.length := List.indexOf_lt_length.2 hp
  have hq' : pids.indexOf q < pids.length := List.indexOf_lt_length.2 hq
  have h1 : pids[pids.indexOf p]? = some p := by
    rw [List.getElem?_eq_getElem hp']
    exact congrArg some (List.getElem_indexOf hp')
  have h2 : pids[pids.indexOf q]? = some q := by
    rw [List.getElem?_eq_getElem hq']
    exact congrArg some (List.getElem_indexOf hq')
  rw [h] at h1
  exact Option.some.inj (h1.symm.trans h2)

/-- Setting a whole group: the index of a group member receives the label. -/
theorem assignNewLabel_mem {pids : List Nat} (hnd : pids.Nodup)
    {group : List Nat} (hgrp : ∀ p ∈ group, p ∈ pids)
    {pid : Nat} (hpid : pid ∈ group) (nl : List Int) (lab : Int)
    (hnl : nl.length = pids.length) :
    (assignNewLabel pids nl group lab)[pids.indexOf pid]? = some lab := by
  induction group generalizing nl with
  | nil => cases hpid
  | cons p rest ih =>
      have hstep : assignNewLabel pids nl (p :: rest) lab
          = assignNewLabel pids (nl.set (pids.indexOf p) lab) rest lab := rfl
      rw [hstep]
      by_cases hmem : pid ∈ rest
      · exact ih (fun q hq => hgrp q (List.mem_cons_of_mem _ hq)) hmem _
          (by rw [List.length_set]; exact hnl)
      · have hpp : pid = p := by
          rcases List.mem_cons.1 hpid with h | h
          · exact h
          · exact absurd h hmem
        subst hpp
        rw [assignNewLabel_frame ?_]
        · rw [List.getElem?_set_eq]
          rw [hnl]
          exact List.indexOf_lt_length.2 (hgrp pid (List.mem_cons_self _ _))
        · intro q hq hcontra
          have hqpids : q ∈ pids := hgrp q (List.mem_cons_of_mem _ hq)
          have := indexOf_inj hnd hqpids (hgrp pid (List.mem_cons_self _ _)) hcontra
          rw [this] at hq
          exact hmem hq

theorem getElem_of_indexOf_eq {pids : List Nat} {p : Nat} {idx : Nat}
    (hp : p ∈ pids) (h : pids.indexOf p = idx) (hidx : idx < pids.length) :
    pids.get ⟨idx, hidx⟩ = p := by
  have hlt := List.indexOf_lt_length.2 hp
  have h1 : pids[pids.indexOf p]? = some p := by
    rw [List.getElem?_eq_getElem hlt]
    exact congrArg some (List.getElem_indexOf hlt)
  rw [h, List.getElem?_eq_getElem hidx] at h1
  rw [List.get_eq_getElem]
  exact Option.some.inj h1

/-- Index-level effect of assigning an exact bucket: an index whose photo has
the bucket's person set receives the label, all others are untouched. -/
theorem assignNewLabel_exact {pids : List Nat} (hnd : pids.Nodup)
    {pp : Nat → Finset Nat} {s : Finset Nat} {vs : List Nat}
    (hex : ∀ pid, pid ∈ vs ↔ (pid ∈ pids ∧ pp pid = s))
    (nl : List Int) (lab : Int) (hnl : nl.length = pids.length)
    (idx : Nat) (hidx : idx < pids.length) :
    (assignNewLabel pids nl vs lab)[idx]? =
      if pp (pids.get ⟨idx, hidx⟩) = s then some lab else nl[idx]? := by
  by_cases hc : pp (pids.get ⟨idx, hidx⟩) = s
  · rw [if_pos hc]
    have hgm : pids.get ⟨idx, hidx⟩ ∈ pids := List.get_mem _ _ hidx
    have hpid : pids.get ⟨idx, hidx⟩ ∈ vs := (hex _).2 ⟨hgm, hc⟩
    have hix : pids.indexOf (pids.get ⟨idx, hidx⟩) = idx := by
      rw [List.get_eq_getElem]
      exact List.indexOf_getElem hnd idx hidx
    have := assignNewLabel_mem hnd (fun r hr => ((hex r).1 hr).1) hpid nl lab hnl
    rw [hix] at this
    exact this
  · rw [if_neg hc]
    refine assignNewLabel_frame ?_
    intro r hr hcontra
    obtain ⟨hrm, hrs⟩ := (hex r).1 hr
    have := getElem_of_indexOf_eq hrm hcontra hidx
    rw [this] at hc
    exact hc hrs

/-- The invariant of the inner split loop over one cluster whose initial
labels are all `0`: `next_label` stays positive, length is preserved, every
entry is `0` or a previously issued fresh label, fresh labels are issued to
exactly one person set, and photos with equal person sets always hold equal
labels. -/
def SplitInv (pids : List Nat) (pp : Nat → Finset Nat) (st : List Int × Int) : Prop :=
  1 ≤ st.2 ∧ st.1.length = pids.length ∧
    (∀ idx : Nat, idx < pids.length →
      ∃ v, st.1[idx]? = some v ∧ (v = 0 ∨ (1 ≤ v ∧ v < st.2))) ∧
    (∀ idx jdx : Nat, ∀ (hi : idx < pids.length) (hj : jdx < pids.length),
      ∀ v w : Int, st.1[idx]? = some v → st.1[jdx]? = some w →
        v ≠ 0 → w ≠ 0 → v = w →
        pp (pids.get ⟨idx, hi⟩) = pp (pids.get ⟨jdx, hj⟩)) ∧
    (∀ idx jdx : Nat, ∀ (hi : idx < pids.length) (hj : jdx < pids.length),
      pp (pids.get ⟨idx, hi⟩) = pp (pids.get ⟨jdx, hj⟩) → st.1[idx]? = st.1[jdx]?)

theorem SplitInv_step {pids : List Nat} {pp : Nat → Finset Nat} {D : Finset Nat}
    (hnd : pids.Nodup) {g : Finset Nat × List Nat}
    (hex : ∀ pid, pid ∈ g.2 ↔ (pid ∈ pids ∧ pp pid = g.1))
    {st : List Int × Int} (hInv : SplitInv pids pp st) :
    SplitInv pids pp (splitStep pids D st g) ∧
      st.2 ≤ (splitStep pids D st g).2 ∧
      (∀ idx : Nat, idx < pids.length → ∀ v, st.1[idx]? = some v → v ≠ 0 →
        ∃ w, (splitStep pids D st g).1[idx]? = some w ∧ w ≠ 0) ∧
      (¬ keepSet D g.1 → ∀ idx, ∀ (hi : idx < pids.length),
        pp (pids.get ⟨idx, hi⟩) = g.1 →
        ∃ w, (splitStep pids D st g).1[idx]? = some w ∧ w ≠ 0) ∧
      (∀ idx, ∀ (hi : idx < pids.length),
        (¬ keepSet D g.1 → pp (pids.get ⟨idx, hi⟩) ≠ g.1) →
        (splitStep pids D st g).1[idx]? = st.1[idx]?) := by
  obtain ⟨hpos, hlen, hrange, hinj, hsync⟩ := hInv
  by_cases hk : keepSet D g.1
  · rw [splitStep_of_keep hk]
    refine ⟨⟨hpos, hlen, hrange, hinj, hsync⟩, le_refl _, ?_, ?_, ?_⟩
    · intro idx _ v hv hvne
      exact ⟨v, hv, hvne⟩
    · intro hnk
      exact absurd hk hnk
    · intro idx hi _
      rfl
  · rw [splitStep_of_not_keep hk]
    have hset := fun idx (hidx : idx < pids.length) =>
      assignNewLabel_exact hnd hex st.1 st.2 hlen idx hidx
    refine ⟨⟨by omega, by rw [assignNewLabel_length]; exact hlen, ?_, ?_, ?_⟩,
      by omega, ?_, ?_, ?_⟩
    · -- range
      intro idx hi
      rw [hset idx hi]
      by_cases hc : pp (pids.get ⟨idx, hi⟩) = g.1
      · rw [if_pos hc]
        exact ⟨st.2, rfl, Or.inr ⟨hpos, by omega⟩⟩
      · rw [if_neg hc]
        obtain ⟨v, hv, hb⟩ := hrange idx hi
        exact ⟨v, hv, by rcases hb with h | h; exact Or.inl h; exact Or.inr ⟨h.1, by omega⟩⟩
    · -- injectivity of nonzero labels
      intro idx jdx hi hj v w hv hw hvne hwne hvw
      rw [hset idx hi] at hv
      rw [hset jdx hj] at hw
      by_cases hci : pp (pids.get ⟨idx, hi⟩) = g.1 <;>
        by_cases hcj : pp (pids.get ⟨jdx, hj⟩) = g.1
      · rw [hci, hcj]
      · exfalso
        rw [if_pos hci] at hv
        rw [if_neg hcj] at hw
        obtain ⟨w', hw', hb⟩ := hrange jdx hj
        rw [hw] at hw'
        have : w' = w := Option.some.inj hw'.symm
        have hv2 : v = st.2 := Option.some.inj hv.symm
        rcases hb with h | h
        · omega
        · omega
      · exfalso
        rw [if_neg hci] at hv
        rw [if_pos hcj] at hw
        obtain ⟨v', hv', hb⟩ := hrange idx hi
        rw [hv] at hv'
        have : v' = v := Option.some.inj hv'.symm
        have hw2 : w = st.2 := Option.some.inj hw.symm
        rcases hb with h | h
        · omega
        · omega
      · rw [if_neg hci] at hv
        rw [if_neg hcj] at hw
        exact hinj idx jdx hi hj v w hv hw hvne hwne hvw
    · -- equal person sets stay synchronized
      intro idx jdx hi hj hps
      rw [hset idx hi, hset jdx hj]
      by_cases hci : pp (pids.get ⟨idx, hi⟩) = g.1
      · rw [if_pos hci, if_pos (hps ▸ hci)]
      · rw [if_neg hci, if_neg (fun hc => hci (hps ▸ hc))]
        exact hsync idx jdx hi hj hps
    · -- nonzero stability
      intro idx hi v hv hvne
      rw [hset idx hi]
      by_cases hc : pp (pids.get ⟨idx, hi⟩) = g.1
      · rw [if_pos hc]
        exact ⟨st.2, rfl, by omega⟩
      · rw [if_neg hc]
        exact ⟨v, hv, hvne⟩
    · -- the split bucket's indices become nonzero
      intro _ idx hi hps
      rw [hset idx hi, if_pos hps]
      exact ⟨st.2, rfl, by omega⟩
    · -- untouched indices
      intro idx hi hns
      rw [hset idx hi, if_neg (hns hk)]

theorem SplitInv_fold {pids : List Nat} {pp : Nat → Finset Nat} {D : Finset Nat}
    (hnd : pids.Nodup) (G' : List (Finset Nat × List Nat))
    (hex : ∀ g ∈ G', ∀ pid, pid ∈ g.2 ↔ (pid ∈ pids ∧ pp pid = g.1))
    {st : List Int × Int} (hInv : SplitInv pids pp st) :
    SplitInv pids pp (G'.foldl (splitStep pids D) st) ∧
      (∀ idx : Nat, idx < pids.length → ∀ v, st.1[idx]? = some v → v ≠ 0 →
        ∃ w, (G'.foldl (splitStep pids D) st).1[idx]? = some w ∧ w ≠ 0) ∧
      (∀ g ∈ G', ¬ keepSet D g.1 → ∀ idx, ∀ (hi : idx < pids.length),
        pp (pids.get ⟨idx, hi⟩) = g.1 →
        ∃ w, (G'.foldl (splitStep pids D) st).1[idx]? = some w ∧ w ≠ 0) ∧
      (∀ idx, ∀ (hi : idx < pids.length),
        (∀ g ∈ G', ¬ keepSet D g.1 → pp (pids.get ⟨idx, hi⟩) ≠ g.1) →
        (G'.foldl (splitStep pids D) st).1[idx]? = st.1[idx]?) := by
  induction G' generalizing st with
  | nil =>
      refine ⟨hInv, ?_, ?_, ?_⟩
      · intro idx _ v hv hvne
        exact ⟨v, hv, hvne⟩
      · intro g hg
        cases hg
      · intro idx hi _
        rfl
  | cons g rest ih =>
      rw [List.foldl_cons]
      obtain ⟨hInv', hmono, hstab, hnew, hframe⟩ :=
        SplitInv_step (D := D) hnd (hex g (List.mem_cons_self _ _)) hInv
      obtain ⟨ihInv, ihstab, ihnew, ihframe⟩ :=
        ih (fun g' hg' => hex g' (List.mem_cons_of_mem _ hg')) hInv'
      refine ⟨ihInv, ?_, ?_, ?_⟩
      · intro idx hi v hv hvne
        obtain ⟨w, hw, hwne⟩ := hstab idx hi v hv hvne
        exact ihstab idx hi w hw hwne
      · intro g' hg' hnk idx hi hps
        rcases List.mem_cons.1 hg' with h | h
        · obtain ⟨w, hw, hwne⟩ := hnew (h ▸ hnk) idx hi (h ▸ hps)
          exact ihstab idx hi w hw hwne
        · exact ihnew g' h hnk idx hi hps
      · intro idx hi hns
        rw [ihframe idx hi (fun g' hg' => hns g' (List.mem_cons_of_mem _ hg'))]
        exact hframe idx hi (fun hnk => hns g (List.mem_cons_self _ _) hnk)

/-- On an all-zero label vector, `refine_clusters_by_faces` reduces to the
single split loop over the cluster's `set_groups` (as soon as the cluster's
members disagree on some person set). -/
theorem refine_const_reduce (pids : List Nat) (pp : Nat → Finset Nat)
    (hdiff : ∃ p ∈ pids, ∃ q ∈ pids, pp p ≠ pp q) :
    refineClustersByFaces pids (List.replicate pids.length (0 : Int)) pp =
      ((setGroupsOf pp pids).foldl
        (splitStep pids (pickLargest (setGroupsOf pp pids)))
        (List.replicate pids.length (0 : Int), 1)).1 := by
  obtain ⟨p, hp, q, hq, hpq⟩ := hdiff
  have hpqne : p ≠ q := fun h => hpq (by rw [h])
  have hne : pids ≠ [] := by
    intro h
    rw [h] at hp
    cases hp
  have hlen1 : 1 ≤ pids.length := List.length_pos.2 hne
  have h2 : 1 < pids.length := one_lt_length_of_two_mem hpqne hp hq
  unfold refineClustersByFaces
  rw [clusterMapOf_const pids hne, labelsMax_replicate _ hlen1, List.foldl_cons,
    List.foldl_nil]
  show (refineStep pids pp (List.replicate pids.length (0 : Int), 0 + 1) (0, pids)).1 = _
  unfold refineStep
  rw [if_neg (by simpa using by omega)]
  rw [if_neg ?_]
  · rw [if_neg ?_]
    · rfl
    · -- at least two distinct person-set buckets
      intro hone
      obtain ⟨g, hg⟩ := List.length_eq_one.1 hone
      obtain ⟨vsp, hbp, _⟩ := setGroupsOf_complete pp hp
      obtain ⟨vsq, hbq, _⟩ := setGroupsOf_complete pp hq
      rw [hg, List.mem_singleton] at hbp hbq
      exact hpq ((congrArg Prod.fst hbp).trans (congrArg Prod.fst hbq).symm)
  · -- not all person sets empty
    intro hall
    rw [List.all_eq_true] at hall
    have hep : pp p = ∅ := by
      have := hall (pp p) (List.mem_map.2 ⟨p, hp, rfl⟩)
      simpa using this
    have heq : pp q = ∅ := by
      have := hall (pp q) (List.mem_map.2 ⟨q, hq, rfl⟩)
      simpa using this
    exact hpq (hep.trans heq.symm)

/-- C5, counterexample.  In a cluster `[1, 2, 3]` where photos 1 and 2
show person 1 and photo 3 has no detected faces, the empty person set *is* a
subset of the dominant set `{1}`, yet photo 3 is split off into a brand-new
cluster (label 1) instead of being kept with the dominant partition: the
`if person_set and largest_set` guard skips the subset test for empty sets. -/
theorem C5_counterexample :
    refineClustersByFaces [1, 2, 3] [0, 0, 0]
        (fun n => if n = 3 then ∅ else {1}) = [0, 0, 1] ∧
      pickLargest (setGroupsOf (fun n => if n = 3 then ∅ else {1}) [1, 2, 3]) = {1} ∧
      (∅ : Finset Nat) ⊆ {1} := by
  refine ⟨by decide, by decide, by decide⟩

/-- C5, amended.  On a multi-photo cluster whose members disagree on
person sets, the photos are partitioned by exact person set; the dominant
partition is the first largest bucket (`pickLargest`); a photo keeps the
original cluster label iff its person set is *kept*: equal to the dominant
set, or non-empty with the dominant set non-empty and one a subset of the
other (the empty set is **not** merged into the dominant cluster); all other
partitions get brand-new labels, one per distinct person set. -/
theorem C5_split_rule (pids : List Nat) (pp : Nat → Finset Nat)
    (hnd : pids.Nodup) (hdiff : ∃ p ∈ pids, ∃ q ∈ pids, pp p ≠ pp q)
    (idx : Nat) (hidx : idx < pids.length) :
    (∃ vs, (pickLargest (setGroupsOf pp pids), vs) ∈ setGroupsOf pp pids ∧
        ∀ g ∈ setGroupsOf pp pids, g.2.length ≤ vs.length) ∧
      (keepSet (pickLargest (setGroupsOf pp pids)) (pp (pids.get ⟨idx, hidx⟩)) →
        (refineClustersByFaces pids (List.replicate pids.length 0) pp)[idx]? = some 0) ∧
      (¬ keepSet (pickLargest (setGroupsOf pp pids)) (pp (pids.get ⟨idx, hidx⟩)) →
        (∃ v, (refineClustersByFaces pids (List.replicate pids.length 0) pp)[idx]? =
            some v ∧ v ≠ 0) ∧
        ∀ jdx, ∀ (hjdx : jdx < pids.length),
          ¬ keepSet (pickLargest (setGroupsOf pp pids)) (pp (pids.get ⟨jdx, hjdx⟩)) →
          ((refineClustersByFaces pids (List.replicate pids.length 0) pp)[idx]? =
              (refineClustersByFaces pids (List.replicate pids.length 0) pp)[jdx]? ↔
            pp (pids.get ⟨idx, hidx⟩) = pp (pids.get ⟨jdx, hjdx⟩))) := by
  obtain ⟨p, hp, q, hq, hpq⟩ := hdiff
  have hGne : setGroupsOf pp pids ≠ [] := by
    intro h
    obtain ⟨vsp, hbp, _⟩ := setGroupsOf_complete pp hp
    rw [h] at hbp
    cases hbp
  have hred := refine_const_reduce pids pp ⟨p, hp, q, hq, hpq⟩
  have hInv0 : SplitInv pids pp (List.replicate pids.length (0 : Int), 1) := by
    refine ⟨le_refl _, List.length_replicate _ _, ?_, ?_, ?_⟩
    · intro i hi
      refine ⟨0, ?_, Or.inl rfl⟩
      simp [List.getElem?_replicate, hi]
    · intro i j hi hj v w hv hw hvne _ _
      exfalso
      simp [List.getElem?_replicate, hi] at hv
      exact hvne hv.symm
    · intro i j hi hj _
      simp [List.getElem?_replicate, hi, hj]
  obtain ⟨hInvF, hstab, hnew, hframe⟩ := SplitInv_fold
    (D := pickLargest (setGroupsOf pp pids)) hnd (setGroupsOf pp pids)
    (fun g hg => setGroupsOf_exact hg) hInv0
  obtain ⟨hpos, hlenF, hrangeF, hinjF, hsyncF⟩ := hInvF
  refine ⟨pickLargest_spec _ hGne, ?_, ?_⟩
  · -- kept person set: label unchanged, still 0
    intro hkeep
    rw [hred]
    rw [hframe idx hidx ?_]
    · simp [List.getElem?_replicate, hidx]
    · intro g hg hnk hps
      rw [← hps] at hnk
      exact hnk hkeep
  · intro hnkeep
    have hvalue : ∀ kdx, ∀ (hk : kdx < pids.length),
        ¬ keepSet (pickLargest (setGroupsOf pp pids)) (pp (pids.get ⟨kdx, hk⟩)) →
        ∃ w, ((setGroupsOf pp pids).foldl
            (splitStep pids (pickLargest (setGroupsOf pp pids)))
            (List.replicate pids.length (0 : Int), 1)).1[kdx]? = some w ∧ w ≠ 0 := by
      intro kdx hk hnk
      obtain ⟨vs, hbucket, _⟩ :=
        setGroupsOf_complete pp (List.get_mem pids _ hk)
      exact hnew _ hbucket hnk kdx hk rfl
    constructor
    · rw [hred]
      exact hvalue idx hidx hnkeep
    · intro jdx hjdx hnkj
      rw [hred]
      obtain ⟨v, hv, hvne⟩ := hvalue idx hidx hnkeep
      obtain ⟨w, hw, hwne⟩ := hvalue jdx hjdx hnkj
      constructor
      · intro heq
        rw [hv, hw] at heq
        exact hinjF idx jdx hidx hjdx v w hv hw hvne hwne (Option.some.inj heq)
      · intro hps
        exact hsyncF idx jdx hidx hjdx hps

/-- Witness for `C5_split_rule` on the concrete cluster `[1, 2, 3]` with
person sets `{1}, {1}, ∅`: photo 1's set is kept (it is the dominant set)
and photo 3's empty set is split off with a nonzero label. -/
theorem C5_split_rule_witness :
    (∃ vs, (pickLargest (setGroupsOf (fun n => if n = 3 then ∅ else {1}) [1, 2, 3]), vs)
        ∈ setGroupsOf (fun n => if n = 3 then ∅ else {1}) [1, 2, 3] ∧
        ∀ g ∈ setGroupsOf (fun n => if n = 3 then ∅ else {1}) [1, 2, 3],
          g.2.length ≤ vs.length) ∧
      (refineClustersByFaces [1, 2, 3] (List.replicate 3 0)
        (fun n => if n = 3 then ∅ else {1}))[0]? = some 0 ∧
      ∃ v, (refineClustersByFaces [1, 2, 3] (List.replicate 3 0)
        (fun n => if n = 3 then ∅ else {1}))[2]? = some v ∧ v ≠ 0 := by
  obtain ⟨hdom, hkeep, _⟩ := C5_split_rule [1, 2, 3] (fun n => if n = 3 then ∅ else {1})
    (by decide) ⟨1, by decide, 3, by decide, by decide⟩ 0 (by decide)
  obtain ⟨_, _, hsplit⟩ := C5_split_rule [1, 2, 3] (fun n => if n = 3 then ∅ else {1})
    (by decide) ⟨1, by decide, 3, by decide, by decide⟩ 2 (by decide)
  exact ⟨hdom, hkeep (by decide), (hsplit (by decide)).1⟩

/-! ## `cluster_photos`, storage phase (index_photos.py lines 666-807)

The DBSCAN/refinement labels are an opaque input (`labels`, aligned with the
embedded rows); the model covers the SQL phase: the `JOIN embeddings` row
selection (line 672), the clearing of previous assignments (lines 731-733),
the assignment loop (lines 736-756) and the stats/representative loop
(lines 758-784).  A photo row carries the mutable `cluster_id` /
`is_cluster_representative` columns; a cluster row carries `photo_count` and
`representative_photo_id`.  `lastrowid` is the `nextCid` counter. -/

structure PhotoMeta where
  pid : Nat
  takenAt : Option Int
  width : Nat
  height : Nat
  hasEmb : Bool
  clusterId : Option Nat
  isRep : Bool
deriving DecidableEq

structure ClusterRow where
  cid : Nat
  photoCount : Nat
  repId : Option Nat
deriving DecidableEq

structure AssignState where
  store : List PhotoMeta
  clusters : List ClusterRow
  clusterMap : List (Int × Nat)
  nextCid : Nat

/-- The `cluster_map` lookup (`label in cluster_map`, line 751). -/
def lookupLabel : List (Int × Nat) → Int → Option Nat
  | [], _ => none
  | (l, c) :: rest, k => if l = k then some c else lookupLabel rest k

/-- Lines 732-733: `UPDATE photos SET cluster_id = NULL,
is_cluster_representative = 0` (the `DELETE FROM clusters` is the empty
initial cluster list of the fold). -/
def clearAssign (store : List PhotoMeta) : List PhotoMeta :=
  store.map (fun p => { p with clusterId := none, isRep := false })

/-- One iteration of the assignment loop (lines 738-756) on `(photo_id,
label)`: a noise photo gets a fresh singleton cluster with itself as
representative; otherwise the label's cluster is reused or freshly created. -/
def assignStep (st : AssignState) (q : Nat × Int) : AssignState :=
  if q.2 = -1 then
    { store := st.store.map (fun r => if r.pid = q.1 then
        { r with clusterId := some st.nextCid, isRep := true } else r),
      clusters := st.clusters ++ [⟨st.nextCid, 1, some q.1⟩],
      clusterMap := st.clusterMap,
      nextCid := st.nextCid + 1 }
  else
    match lookupLabel st.clusterMap q.2 with
    | some cid =>
        { st with store := st.store.map (fun r => if r.pid = q.1 then
            { r with clusterId := some cid } else r) }
    | none =>
        { store := st.store.map (fun r => if r.pid = q.1 then
            { r with clusterId := some st.nextCid } else r),
          clusters := st.clusters ++ [⟨st.nextCid, 0, none⟩],
          clusterMap := st.clusterMap ++ [(q.2, st.nextCid)],
          nextCid := st.nextCid + 1 }

def area (p : PhotoMeta) : Nat := p.width * p.height

/-- The `ORDER BY taken_at ASC, (width * height) DESC` comparison of the
representative query (lines 767-772): `a` strictly precedes `b`.  SQLite
sorts NULL timestamps first under `ASC`. -/
def repLTb (a b : PhotoMeta) : Bool :=
  match a.takenAt, b.takenAt with
  | none, none => decide (area b < area a)
  | none, some _ => true
  | some _, none => false
  | some x, some y => decide (x < y) || (decide (x = y) && decide (area b < area a))

/-- The `LIMIT 1` choice over the sorted rows: the first minimal element in row order. -/
def minByFirst (f : PhotoMeta → PhotoMeta → Bool) : List PhotoMeta → Option PhotoMeta
  | [] => none
  | p :: rest => some (rest.foldl (fun best q => if f q best then q else best) p)

/-- Model of `SELECT id FROM photos WHERE cluster_id = ? ORDER BY taken_at ASC,
(width * height) DESC LIMIT 1`. -/
def repSelect (members : List PhotoMeta) : Option PhotoMeta := minByFirst repLTb members

/-- One iteration of the stats loop (lines 759-784): count the cluster's
photos, pick the representative, update the cluster row and flag the photo;
`if rep:` skips empty clusters. -/
def statsStep (st : List PhotoMeta × List ClusterRow) (e : Int × Nat) :
    List PhotoMeta × List ClusterRow :=
  match repSelect (st.1.filter (fun p => decide (p.clusterId = some e.2))) with
  | none => st
  | some r =>
      (st.1.map (fun p => if p.pid = r.pid then { p with isRep := true } else p),
       st.2.map (fun c => if c.cid = e.2 then
         { c with
            photoCount := (st.1.filter (fun p => decide (p.clusterId = some e.2))).length,
            repId := some r.pid } else c))

/-- The storage phase of `cluster_photos`: select the embedded rows (the
`JOIN`), return early when there are none (lines 680-683, leaving the
previous `photos`/`clusters` state untouched), otherwise clear the previous
assignment, run the assignment loop, then the stats loop. -/
def clusterRun (clusters0 : List ClusterRow) (store : List PhotoMeta)
    (labels : List Int) : List PhotoMeta × List ClusterRow :=
  let rows := store.filter (fun p => p.hasEmb)
  if rows = [] then (store, clusters0)
  else
    let pairs := (rows.map (fun p => p.pid)).zip labels
    let st := pairs.foldl assignStep ⟨clearAssign store, [], [], 1⟩
    st.clusterMap.foldl statsStep (st.store, st.clusters)

example :
    clusterRun [] [⟨1, some 10, 10, 10, true, none, false⟩,
        ⟨2, some 20, 20, 20, true, none, false⟩] [0, 0] =
      ([⟨1, some 10, 10, 10, true, some 1, true⟩,
        ⟨2, some 20, 20, 20, true, some 1, false⟩], [⟨1, 2, some 1⟩]) := by
  decide

example :
    clusterRun [] [⟨1, none, 1, 1, true, none, false⟩,
        ⟨2, none, 1, 1, true, none, false⟩, ⟨3, none, 1, 1, true, none, false⟩]
      [-1, 4, 4] =
      ([⟨1, none, 1, 1, true, some 1, true⟩,
        ⟨2, none, 1, 1, true, some 2, true⟩,
        ⟨3, none, 1, 1, true, some 2, false⟩],
       [⟨1, 1, some 1⟩, ⟨2, 2, some 2⟩]) := by
  decide

/-- C8.  Degenerate input: with zero photos the duplicate scan returns
the empty group list, and with zero embedded photos the clustering run
returns early without touching the photo or cluster state — in both cases a
normal return, never an exception (all functions here are total). -/
theorem C8_degenerate :
    findNearDuplicates [] = [] ∧
      ∀ (clusters0 : List ClusterRow) (store : List PhotoMeta) (labels : List Int),
        store.filter (fun p => p.hasEmb) = [] →
        clusterRun clusters0 store labels = (store, clusters0) := by
  refine ⟨rfl, ?_⟩
  intro clusters0 store labels h
  unfold clusterRun
  rw [h]
  rfl

/-- Witness for `C8_degenerate`: a store whose only photo has no embedding
is returned unchanged together with the previous cluster table. -/
theorem C8_degenerate_witness :
    clusterRun [⟨5, 3, some 9⟩] [⟨2, none, 4, 4, false, some 7, true⟩] [] =
      ([⟨2, none, 4, 4, false, some 7, true⟩], [⟨5, 3, some 9⟩]) :=
  C8_degenerate.2 _ _ _ (by decide)

/-- C2, counterexample.  A photo without an embedding is excluded by the
`JOIN embeddings` and is left with a NULL cluster assignment after the run —
it does not appear in any final cluster. -/
theorem C2_counterexample :
    ∃ p ∈ (clusterRun [] [⟨1, none, 1, 1, true, none, false⟩,
        ⟨2, none, 1, 1, false, none, false⟩] [0]).1,
      p.hasEmb = false ∧ p.clusterId = none := by
  decide

-- Origin tracking: the storage phase only rewrites `cluster_id` / `is_rep`,
-- so every output row descends from an input row with the same id/embedding.

theorem assignStep_origin (st : AssignState) (q : Nat × Int) :
    ∀ p' ∈ (assignStep st q).store,
      ∃ p ∈ st.store, p'.pid = p.pid ∧ p'.hasEmb = p.hasEmb := by
  intro p' hp'
  unfold assignStep at hp'
  by_cases hq : q.2 = -1
  · rw [if_pos hq] at hp'
    obtain ⟨p, hp, he⟩ := List.mem_map.1 hp'
    refine ⟨p, hp, ?_⟩
    rw [← he]
    by_cases hm : p.pid = q.1 <;> simp [hm]
  · rw [if_neg hq] at hp'
    match hl : lookupLabel st.clusterMap q.2 with
    | some cid =>
        rw [hl] at hp'
        obtain ⟨p, hp, he⟩ := List.mem_map.1 hp'
        refine ⟨p, hp, ?_⟩
        rw [← he]
        by_cases hm : p.pid = q.1 <;> simp [hm]
    | none =>
        rw [hl] at hp'
        obtain ⟨p, hp, he⟩ := List.mem_map.1 hp'
        refine ⟨p, hp, ?_⟩
        rw [← he]
        by_cases hm : p.pid = q.1 <;> simp [hm]

theorem assignFold_origin (pairs : List (Nat × Int)) (st : AssignState) :
    ∀ p' ∈ (pairs.foldl assignStep st).store,
      ∃ p ∈ st.store, p'.pid = p.pid ∧ p'.hasEmb = p.hasEmb := by
  induction pairs generalizing st with
  | nil => intro p' hp'; exact ⟨p', hp', rfl, rfl⟩
  | cons q rest ih =>
      intro p' hp'
      rw [List.foldl_cons] at hp'
      obtain ⟨p1, hp1, h1, h2⟩ := ih (assignStep st q) p' hp'
      obtain ⟨p, hp, h3, h4⟩ := assignStep_origin st q p1 hp1
      exact ⟨p, hp, h1.trans h3, h2.trans h4⟩

theorem statsStep_origin (st : List PhotoMeta × List ClusterRow) (e : Int × Nat) :
    ∀ p' ∈ (statsStep st e).1,
      ∃ p ∈ st.1, p'.pid = p.pid ∧ p'.hasEmb = p.hasEmb ∧
        p'.clusterId = p.clusterId := by
  intro p' hp'
  unfold statsStep at hp'
  match hr : repSelect (st.1.filter (fun p => decide (p.clusterId = some e.2))) with
  | none =>
      rw [hr] at hp'
      exact ⟨p', hp', rfl, rfl, rfl⟩
  | some r =>
      rw [hr] at hp'
      obtain ⟨p, hp, he⟩ := List.mem_map.1 hp'
      refine ⟨p, hp, ?_⟩
      rw [← he]
      by_cases hm : p.pid = r.pid <;> simp [hm]

theorem statsFold_origin (entries : List (Int × Nat))
    (st : List PhotoMeta × List ClusterRow) :
    ∀ p' ∈ (entries.foldl statsStep st).1,
      ∃ p ∈ st.1, p'.pid = p.pid ∧ p'.hasEmb = p.hasEmb ∧
        p'.clusterId = p.clusterId := by
  induction entries generalizing st with
  | nil => intro p' hp'; exact ⟨p', hp', rfl, rfl, rfl⟩
  | cons e rest ih =>
      intro p' hp'
      rw [List.foldl_cons] at hp'
      obtain ⟨p1, hp1, h1, h2, h3⟩ := ih (statsStep st e) p' hp'
      obtain ⟨p, hp, h4, h5, h6⟩ := statsStep_origin st e p1 hp1
      exact ⟨p, hp, h1.trans h4, h2.trans h5, h3.trans h6⟩

/-- A photo id's rows all hold a (some) cluster id. -/
def AssignedPid (pid : Nat) (store : List PhotoMeta) : Prop :=
  ∀ p ∈ store, p.pid = pid → ∃ c, p.clusterId = some c

/-- A photo id's rows all hold a NULL cluster id. -/
def UnassignedPid (pid : Nat) (store : List PhotoMeta) : Prop :=
  ∀ p ∈ store, p.pid = pid → p.clusterId = none

theorem assignStep_store_cases (st : AssignState) (q : Nat × Int) :
    ∀ p' ∈ (assignStep st q).store,
      ∃ p ∈ st.store, p'.pid = p.pid ∧
        ((p.pid ≠ q.1 ∧ p' = p) ∨ (p.pid = q.1 ∧ ∃ c, p'.clusterId = some c)) := by
  intro p' hp'
  unfold assignStep at hp'
  by_cases hq : q.2 = -1
  · rw [if_pos hq] at hp'
    obtain ⟨p, hp, he⟩ := List.mem_map.1 hp'
    by_cases hm : p.pid = q.1
    · rw [if_pos hm] at he
      exact ⟨p, hp, by rw [← he], Or.inr ⟨hm, st.nextCid, by rw [← he]⟩⟩
    · rw [if_neg hm] at he
      exact ⟨p, hp, by rw [← he], Or.inl ⟨hm, he.symm⟩⟩
  · rw [if_neg hq] at hp'
    match hl : lookupLabel st.clusterMap q.2 with
    | some cid =>
        rw [hl] at hp'
        obtain ⟨p, hp, he⟩ := List.mem_map.1 hp'
        by_cases hm : p.pid = q.1
        · rw [if_pos hm] at he
          exact ⟨p, hp, by rw [← he], Or.inr ⟨hm, cid, by rw [← he]⟩⟩
        · rw [if_neg hm] at he
          exact ⟨p, hp, by rw [← he], Or.inl ⟨hm, he.symm⟩⟩
    | none =>
        rw [hl] at hp'
        obtain ⟨p, hp, he⟩ := List.mem_map.1 hp'
        by_cases hm : p.pid = q.1
        · rw [if_pos hm] at he
          exact ⟨p, hp, by rw [← he], Or.inr ⟨hm, st.nextCid, by rw [← he]⟩⟩
        · rw [if_neg hm] at he
          exact ⟨p, hp, by rw [← he], Or.inl ⟨hm, he.symm⟩⟩

theorem AssignedPid_step {pid : Nat} {st : AssignState} (q : Nat × Int)
    (h : AssignedPid pid st.store) : AssignedPid pid (assignStep st q).store := by
  intro p' hp' hpid
  obtain ⟨p, hp, hpe, hcase⟩ := assignStep_store_cases st q p' hp'
  rcases hcase with ⟨_, he⟩ | ⟨_, c, hc⟩
  · rw [he]
    exact h p hp (hpe ▸ hpid)
  · exact ⟨c, hc⟩

theorem AssignedPid_self (st : AssignState) (q : Nat × Int) :
    AssignedPid q.1 (assignStep st q).store := by
  intro p' hp' hpid
  obtain ⟨p, hp, hpe, hcase⟩ := assignStep_store_cases st q p' hp'
  rcases hcase with ⟨hne, he⟩ | ⟨_, c, hc⟩
  · exact absurd (hpe ▸ hpid) hne
  · exact ⟨c, hc⟩

theorem UnassignedPid_step {pid : Nat} {st : AssignState} {q : Nat × Int}
    (hq : q.1 ≠ pid) (h : UnassignedPid pid st.store) :
    UnassignedPid pid (assignStep st q).store := by
  intro p' hp' hpid
  obtain ⟨p, hp, hpe, hcase⟩ := assignStep_store_cases st q p' hp'
  rcases hcase with ⟨_, he⟩ | ⟨hm, _⟩
  · rw [he]
    exact h p hp (hpe ▸ hpid)
  · exact absurd (hm.symm.trans (hpe ▸ hpid)) hq

theorem AssignedPid_fold {pid : Nat} {l : Int} (pairs : List (Nat × Int))
    (st : AssignState) (hmem : (pid, l) ∈ pairs) :
    AssignedPid pid (pairs.foldl assignStep st).store := by
  induction pairs generalizing st with
  | nil => cases hmem
  | cons q rest ih =>
      rw [List.foldl_cons]
      rcases List.mem_cons.1 hmem with h | h
      · have hq : q.1 = pid := by rw [← h]
        suffices H : ∀ (rest : List (Nat × Int)) (st' : AssignState),
            AssignedPid pid st'.store → AssignedPid pid (rest.foldl assignStep st').store by
          exact H rest _ (hq ▸ AssignedPid_self st q)
        intro rest
        induction rest with
        | nil => intro st' h'; exact h'
        | cons q' rest' ih' =>
            intro st' h'
            rw [List.foldl_cons]
            exact ih' _ (AssignedPid_step q' h')
      · exact ih _ h

theorem UnassignedPid_fold {pid : Nat} (pairs : List (Nat × Int))
    (st : AssignState) (hmem : pid ∉ pairs.map Prod.fst)
    (h : UnassignedPid pid st.store) :
    UnassignedPid pid (pairs.foldl assignStep st).store := by
  induction pairs generalizing st with
  | nil => exact h
  | cons q rest ih =>
      rw [List.foldl_cons]
      refine ih _ (fun hc => hmem (List.mem_cons_of_mem _ hc))
        (UnassignedPid_step ?_ h)
      intro hc
      exact hmem (by rw [← hc]; exact List.mem_cons_self _ _)

/-- C2, amended.  After a clustering run that processes at least one
embedded photo: every photo *with* an embedding carries exactly one cluster
assignment, and every photo *without* an embedding is left with a NULL
cluster assignment — the `JOIN embeddings` excludes it and line 733 has just
cleared its previous assignment. -/
theorem C2_amended (clusters0 : List ClusterRow) (store : List PhotoMeta)
    (labels : List Int) (hnd : (store.map (fun p => p.pid)).Nodup)
    (hlen : labels.length = (store.filter (fun p => p.hasEmb)).length)
    (hrows : store.filter (fun p => p.hasEmb) ≠ []) :
    ∀ p ∈ (clusterRun clusters0 store labels).1,
      (p.hasEmb = true → ∃ c, p.clusterId = some c) ∧
      (p.hasEmb = false → p.clusterId = none) := by
  intro p hp
  unfold clusterRun at hp
  rw [if_neg hrows] at hp
  set rows := store.filter (fun p => p.hasEmb) with hrowsdef
  set pairs := (rows.map (fun p => p.pid)).zip labels with hpairs
  set stA := pairs.foldl assignStep ⟨clearAssign store, [], [], 1⟩ with hstA
  -- the final row descends from a row of the assignment state, which
  -- descends from a row of the original store
  obtain ⟨p1, hp1, he1, he2, he3⟩ :=
    statsFold_origin stA.clusterMap (stA.store, stA.clusters) p hp
  obtain ⟨p0, hp0, hf1, hf2⟩ := assignFold_origin pairs _ p1 hp1
  obtain ⟨porig, hporig, hg1, hg2⟩ : ∃ r ∈ store, p0.pid = r.pid ∧ p0.hasEmb = r.hasEmb := by
    obtain ⟨r, hr, he⟩ := List.mem_map.1 hp0
    exact ⟨r, hr, by rw [← he], by rw [← he]⟩
  have hpidchain : p.pid = porig.pid := he1.trans (hf1.trans hg1)
  have hembchain : p.hasEmb = porig.hasEmb := he2.trans (hf2.trans hg2)
  have hfst : pairs.map Prod.fst = rows.map (fun p => p.pid) := by
    refine List.map_fst_zip _ _ ?_
    rw [List.length_map, ← hlen]
  constructor
  · intro hemb
    -- embedded: its id is paired with a label, hence assigned
    have hporigemb : porig.hasEmb = true := hembchain ▸ hemb
    have hmemrows : porig ∈ rows := by
      rw [hrowsdef]
      exact List.mem_filter.2 ⟨hporig, by rw [hporigemb]⟩
    have hpidpairs : porig.pid ∈ pairs.map Prod.fst := by
      rw [hfst]
      exact List.mem_map.2 ⟨porig, hmemrows, rfl⟩
    obtain ⟨q, hq, hqe⟩ := List.mem_map.1 hpidpairs
    have hassigned : AssignedPid porig.pid stA.store := by
      rw [hstA]
      exact AssignedPid_fold (l := q.2) pairs _ (by rw [← hqe]; exact hq)
    have hassigned' : AssignedPid porig.pid
        ((stA.clusterMap.foldl statsStep (stA.store, stA.clusters)).1) := by
      intro r hr hrpid
      obtain ⟨r0, hr0, hh1, _, hh3⟩ :=
        statsFold_origin stA.clusterMap (stA.store, stA.clusters) r hr
      obtain ⟨c, hc⟩ := hassigned r0 hr0 (hh1 ▸ hrpid)
      exact ⟨c, hh3.trans hc⟩
    exact hassigned' p hp hpidchain
  · intro hemb
    -- not embedded: its id never appears among the pairs
    have hporigemb : porig.hasEmb = false := hembchain ▸ hemb
    have hnotpairs : porig.pid ∉ pairs.map Prod.fst := by
      rw [hfst]
      intro hc
      obtain ⟨q, hq, hqe⟩ := List.mem_map.1 hc
      have hqstore : q ∈ store := List.mem_of_mem_filter hq
      have hqemb : q.hasEmb = true := by simpa using (List.of_mem_filter hq)
      have : q = porig := List.inj_on_of_nodup_map hnd hqstore hporig hqe
      rw [this, hporigemb] at hqemb
      cases hqemb
    have hclear : UnassignedPid porig.pid (clearAssign store) := by
      intro r hr _
      obtain ⟨r0, _, he⟩ := List.mem_map.1 hr
      rw [← he]
    have hunassigned : UnassignedPid porig.pid stA.store := by
      rw [hstA]
      exact UnassignedPid_fold pairs _ hnotpairs hclear
    -- transfer through the stats loop
    obtain ⟨r0, hr0, hh1, _, hh3⟩ :=
      statsFold_origin stA.clusterMap (stA.store, stA.clusters) p hp
    rw [hh3]
    exact hunassigned r0 hr0 (hh1.symm.trans hpidchain)

/-- Witness for `C2_amended` at a two-photo store: the embedded photo (row 1
of the run output) is assigned a cluster, its embedding-less companion (row
2) stays NULL. -/
theorem C2_amended_witness :
    (∃ c, (⟨1, none, 1, 1, true, some 1, true⟩ : PhotoMeta).clusterId = some c) ∧
      (⟨2, none, 1, 1, false, none, false⟩ : PhotoMeta).clusterId = none :=
  ⟨(C2_amended [] [⟨1, none, 1, 1, true, none, false⟩,
        ⟨2, none, 1, 1, false, none, false⟩] [0]
      (by decide) (by decide) (by decide) _ (by decide)).1 (by decide),
    (C2_amended [] [⟨1, none, 1, 1, true, none, false⟩,
        ⟨2, none, 1, 1, false, none, false⟩] [0]
      (by decide) (by decide) (by decide) _ (by decide)).2 (by decide)⟩

-- ### C4: representative selection order

theorem repLTb_irrefl (a : PhotoMeta) : repLTb a a = false := by
  unfold repLTb
  cases a.takenAt <;> simp

theorem repLTb_trans {a b c : PhotoMeta} (h1 : repLTb a b = true)
    (h2 : repLTb b c = true) : repLTb a c = true := by
  unfold repLTb at h1 h2 ⊢
  cases ha : a.takenAt <;> cases hb : b.takenAt <;> cases hc : c.takenAt <;>
    rw [ha, hb] at h1 <;> rw [hb, hc] at h2 <;> simp_all <;> omega

theorem repLTb_not_trans {a b c : PhotoMeta} (h1 : repLTb a b = false)
    (h2 : repLTb b c = false) : repLTb a c = false := by
  unfold repLTb at h1 h2 ⊢
  cases ha : a.takenAt <;> cases hb : b.takenAt <;> cases hc : c.takenAt <;>
    rw [ha, hb] at h1 <;> rw [hb, hc] at h2 <;> simp_all <;> omega

theorem foldl_min_mem (l : List PhotoMeta) (p : PhotoMeta) :
    (l.foldl (fun best q => if repLTb q best then q else best) p) ∈ p :: l := by
  induction l generalizing p with
  | nil => exact List.mem_singleton.2 rfl
  | cons q0 t ih =>
      rw [List.foldl_cons]
      rcases List.mem_cons.1 (ih (if repLTb q0 p then q0 else p)) with h | h
      · rw [h]
        by_cases hc : repLTb q0 p
        · rw [if_pos hc]
          exact List.mem_cons_of_mem _ (List.mem_cons_self _ _)
        · rw [if_neg hc]
          exact List.mem_cons_self _ _
      · exact List.mem_cons_of_mem _ (List.mem_cons_of_mem _ h)

theorem foldl_min_not_lt (l : List PhotoMeta) (p : PhotoMeta) :
    ∀ q ∈ p :: l,
      repLTb q (l.foldl (fun best q => if repLTb q best then q else best) p) = false := by
  induction l generalizing p with
  | nil =>
      intro q hq
      rw [List.mem_singleton.1 hq, List.foldl_nil]
      exact repLTb_irrefl p
  | cons q0 t ih =>
      intro q hq
      rw [List.foldl_cons]
      by_cases hc : repLTb q0 p
      · rw [if_pos hc]
        rcases List.mem_cons.1 hq with h | h
        · -- q = p; q0 strictly precedes p, and the result does not exceed q0
          have hq0 := ih q0 q0 (List.mem_cons_self _ _)
          rw [h]
          by_contra hcon
          rw [Bool.not_eq_false] at hcon
          have := repLTb_trans hc hcon
          rw [this] at hq0
          cases hq0
        · exact ih q0 q (h)
      · rw [if_neg hc]
        rcases List.mem_cons.1 hq with h | h
        · rw [h]
          exact ih p p (List.mem_cons_self _ _)
        · rcases List.mem_cons.1 h with h | h
          · -- q = q0 does not precede p, which does not precede the result
            have hp := ih p p (List.mem_cons_self _ _)
            rw [h]
            exact repLTb_not_trans (by simpa using hc) hp
          · exact ih p q (List.mem_cons_of_mem _ h)

/-- C4, amended.  The representative query picks a member photo that no
other member strictly precedes under the order actually used by the code:
earliest `taken_at` first (NULL timestamps first), largest pixel area on
timestamp ties; there is no sharpness criterion and no explicit id
tie-break (full ties fall to the earliest row in scan order, which
`minByFirst`/`repSelect` — the function `statsStep` applies — realizes). -/
theorem C4_amended (members : List PhotoMeta) (h : members ≠ []) :
    ∃ r, repSelect members = some r ∧ r ∈ members ∧
      ∀ q ∈ members, repLTb q r = false := by
  match members, h with
  | p :: rest, _ =>
      refine ⟨rest.foldl (fun best q => if repLTb q best then q else best) p,
        rfl, foldl_min_mem rest p, foldl_min_not_lt rest p⟩

/-- Witness for `C4_amended` on a two-member cluster. -/
theorem C4_amended_witness :
    ∃ r, repSelect [⟨1, some 10, 10, 10, true, some 1, false⟩,
        ⟨2, some 20, 20, 20, true, some 1, false⟩] = some r ∧
      r ∈ [⟨1, some 10, 10, 10, true, some 1, false⟩,
        ⟨2, some 20, 20, 20, true, some 1, false⟩] ∧
      ∀ q ∈ [⟨1, some 10, 10, 10, true, some 1, false⟩,
        ⟨2, some 20, 20, 20, true, some 1, false⟩], repLTb q r = false :=
  C4_amended _ (by decide)

/-- The representative rule as the claim words it: highest sharpness first —
but no sharpness column exists in the photos table, so that criterion never
discriminates — then largest pixel area, then earliest timestamp, then
lowest photo id. -/
def claimedRepLTb (a b : PhotoMeta) : Bool :=
  decide (area b < area a) ||
    (decide (area a = area b) &&
      (match a.takenAt, b.takenAt with
        | none, none => decide (a.pid < b.pid)
        | none, some _ => true
        | some _, none => false
        | some x, some y =>
            decide (x < y) || (decide (x = y) && decide (a.pid < b.pid))))

/-- Representative selection as described by the claim. -/
def claimedRepSelect (members : List PhotoMeta) : Option PhotoMeta :=
  minByFirst claimedRepLTb members

/-- C4, counterexample.  In a cluster of two photos — photo 1 earlier
but small (10×10), photo 2 later but large (20×20), sharpness nonexistent —
the claim's priority order (area before timestamp) picks photo 2, but the
code's `ORDER BY taken_at ASC, (width * height) DESC` picks photo 1: the
stored representative is photo 1. -/
theorem C4_counterexample :
    (clusterRun [] [⟨1, some 10, 10, 10, true, none, false⟩,
        ⟨2, some 20, 20, 20, true, none, false⟩] [0, 0]).2 = [⟨1, 2, some 1⟩] ∧
      (claimedRepSelect [⟨1, some 10, 10, 10, true, none, false⟩,
        ⟨2, some 20, 20, 20, true, none, false⟩]).map (fun p => p.pid) = some 2 ∧
      (repSelect [⟨1, some 10, 10, 10, true, none, false⟩,
        ⟨2, some 20, 20, 20, true, none, false⟩]).map (fun p => p.pid) = some 1 := by
  refine ⟨by decide, by decide, by decide⟩

-- ### C7: noise photos become singleton clusters

theorem lookupLabel_mem {m : List (Int × Nat)} {k : Int} {c : Nat}
    (h : lookupLabel m k = some c) : (k, c) ∈ m := by
  induction m with
  | nil => cases h
  | cons q rest ih =>
      obtain ⟨l, c'⟩ := q
      unfold lookupLabel at h
      by_cases hl : l = k
      · rw [if_pos hl] at h
        have : c' = c := Option.some.inj h
        rw [← hl, ← this]
        exact List.mem_cons_self _ _
      · rw [if_neg hl] at h
        exact List.mem_cons_of_mem _ (ih h)

theorem assignStep_noise {st : AssignState} {q : Nat × Int} (h : q.2 = -1) :
    assignStep st q =
      { store := st.store.map (fun r => if r.pid = q.1 then
          { r with clusterId := some st.nextCid, isRep := true } else r),
        clusters := st.clusters ++ [⟨st.nextCid, 1, some q.1⟩],
        clusterMap := st.clusterMap,
        nextCid := st.nextCid + 1 } := by
  unfold assignStep
  rw [if_pos h]

theorem assignStep_known {st : AssignState} {q : Nat × Int} {cid : Nat}
    (h : ¬ q.2 = -1) (hl : lookupLabel st.clusterMap q.2 = some cid) :
    assignStep st q =
      { st with store := st.store.map (fun r => if r.pid = q.1 then
          { r with clusterId := some cid } else r) } := by
  unfold assignStep
  rw [if_neg h, hl]

theorem assignStep_fresh {st : AssignState} {q : Nat × Int}
    (h : ¬ q.2 = -1) (hl : lookupLabel st.clusterMap q.2 = none) :
    assignStep st q =
      { store := st.store.map (fun r => if r.pid = q.1 then
          { r with clusterId := some st.nextCid } else r),
        clusters := st.clusters ++ [⟨st.nextCid, 0, none⟩],
        clusterMap := st.clusterMap ++ [(q.2, st.nextCid)],
        nextCid := st.nextCid + 1 } := by
  unfold assignStep
  rw [if_neg h, hl]

/-- The running well-formedness of the assignment loop: every issued cluster
id is below the `lastrowid` counter. -/
def AssignWF (st : AssignState) : Prop :=
  (∀ c ∈ st.clusters, c.cid < st.nextCid) ∧
    (∀ q ∈ st.clusterMap, q.2 < st.nextCid) ∧
    (∀ p ∈ st.store, ∀ c, p.clusterId = some c → c < st.nextCid)

theorem AssignWF_init (store : List PhotoMeta) :
    AssignWF ⟨clearAssign store, [], [], 1⟩ := by
  refine ⟨fun c hc => absurd hc (List.not_mem_nil _), fun q hq => absurd hq (List.not_mem_nil _), ?_⟩
  intro p hp c hc
  obtain ⟨p0, _, he⟩ := List.mem_map.1 hp
  rw [← he] at hc
  cases hc

theorem AssignWF_step {st : AssignState} (q : Nat × Int) (h : AssignWF st) :
    AssignWF (assignStep st q) := by
  obtain ⟨h1, h2, h3⟩ := h
  by_cases hq : q.2 = -1
  · rw [assignStep_noise hq]
    refine ⟨?_, ?_, ?_⟩
    · intro c hc
      show c.cid < st.nextCid + 1
      rcases List.mem_append.1 hc with hc | hc
      · have := h1 c hc
        omega
      · rw [List.mem_singleton.1 hc]
        show st.nextCid < st.nextCid + 1
        omega
    · intro r hr
      show r.2 < st.nextCid + 1
      have := h2 r hr
      omega
    · intro p hp c hc
      show c < st.nextCid + 1
      obtain ⟨p0, hp0, he⟩ := List.mem_map.1 hp
      by_cases hm : p0.pid = q.1
      · rw [if_pos hm] at he
        rw [← he] at hc
        have : st.nextCid = c := Option.some.inj hc
        omega
      · rw [if_neg hm] at he
        rw [← he] at hc
        have := h3 p0 hp0 c hc
        omega
  · match hl : lookupLabel st.clusterMap q.2 with
    | some cid =>
        rw [assignStep_known hq hl]
        refine ⟨h1, h2, ?_⟩
        intro p hp c hc
        obtain ⟨p0, hp0, he⟩ := List.mem_map.1 hp
        by_cases hm : p0.pid = q.1
        · rw [if_pos hm] at he
          rw [← he] at hc
          have : cid = c := Option.some.inj hc
          rw [← this]
          exact h2 _ (lookupLabel_mem hl)
        · rw [if_neg hm] at he
          rw [← he] at hc
          exact h3 p0 hp0 c hc
    | none =>
        rw [assignStep_fresh hq hl]
        refine ⟨?_, ?_, ?_⟩
        · intro c hc
          show c.cid < st.nextCid + 1
          rcases List.mem_append.1 hc with hc | hc
          · have := h1 c hc
            omega
          · rw [List.mem_singleton.1 hc]
            show st.nextCid < st.nextCid + 1
            omega
        · intro r hr
          show r.2 < st.nextCid + 1
          rcases List.mem_append.1 hr with hr | hr
          · have := h2 r hr
            omega
          · rw [List.mem_singleton.1 hr]
            show st.nextCid < st.nextCid + 1
            omega
        · intro p hp c hc
          show c < st.nextCid + 1
          obtain ⟨p0, hp0, he⟩ := List.mem_map.1 hp
          by_cases hm : p0.pid = q.1
          · rw [if_pos hm] at he
            rw [← he] at hc
            have : st.nextCid = c := Option.some.inj hc
            omega
          · rw [if_neg hm] at he
            rw [← he] at hc
            have := h3 p0 hp0 c hc
            omega

/-- After the noise photo `pid0` has been processed: it is assigned to its
own cluster `cid`, flagged representative, the singleton cluster row exists,
no other photo is in `cid`, and `cid` is not in the label map. -/
def NoiseDone (pid0 cid : Nat) (st : AssignState) : Prop :=
  cid < st.nextCid ∧
    (∀ p ∈ st.store, (p.pid = pid0 → p.clusterId = some cid ∧ p.isRep = true) ∧
      (p.pid ≠ pid0 → p.clusterId ≠ some cid)) ∧
    (⟨cid, 1, some pid0⟩ : ClusterRow) ∈ st.clusters ∧
    (∀ q ∈ st.clusterMap, q.2 ≠ cid)

theorem NoiseDone_establish {st : AssignState} (hWF : AssignWF st) (pid0 : Nat) :
    NoiseDone pid0 st.nextCid (assignStep st (pid0, -1)) := by
  obtain ⟨h1, h2, h3⟩ := hWF
  rw [assignStep_noise rfl]
  refine ⟨by show st.nextCid < st.nextCid + 1; omega, ?_,
    List.mem_append_right _ (List.mem_singleton.2 rfl), ?_⟩
  · intro p hp
    obtain ⟨p0, hp0, he⟩ := List.mem_map.1 hp
    by_cases hm : p0.pid = pid0
    · rw [if_pos hm] at he
      constructor
      · intro _
        rw [← he]
        exact ⟨rfl, rfl⟩
      · intro hne
        exact absurd (by rw [← he]; exact hm) hne
    · rw [if_neg hm] at he
      constructor
      · intro hpe
        exact absurd (by rw [← he] at hpe; exact hpe) hm
      · intro _ hc
        rw [← he] at hc
        have := h3 p0 hp0 _ hc
        omega
  · intro r hr
    have := h2 r hr
    omega

theorem NoiseDone_step {pid0 cid : Nat} {st : AssignState} {q : Nat × Int}
    (hq : q.1 ≠ pid0) (hWF : AssignWF st) (hND : NoiseDone pid0 cid st) :
    NoiseDone pid0 cid (assignStep st q) := by
  obtain ⟨hlt, hstore, hclrow, hmap⟩ := hND
  obtain ⟨h1, h2, h3⟩ := hWF
  by_cases hqn : q.2 = -1
  · rw [assignStep_noise hqn]
    refine ⟨by show cid < st.nextCid + 1; omega, ?_, List.mem_append_left _ hclrow, hmap⟩
    intro p hp
    obtain ⟨p0, hp0, he⟩ := List.mem_map.1 hp
    by_cases hm : p0.pid = q.1
    · rw [if_pos hm] at he
      constructor
      · intro hpe
        rw [← he] at hpe
        exact absurd (hm ▸ hpe) hq
      · intro _ hc
        rw [← he] at hc
        have : st.nextCid = cid := Option.some.inj hc
        omega
    · rw [if_neg hm] at he
      rw [← he]
      exact hstore p0 hp0
  · match hl : lookupLabel st.clusterMap q.2 with
    | some cid' =>
        rw [assignStep_known hqn hl]
        refine ⟨hlt, ?_, hclrow, hmap⟩
        intro p hp
        obtain ⟨p0, hp0, he⟩ := List.mem_map.1 hp
        by_cases hm : p0.pid = q.1
        · rw [if_pos hm] at he
          constructor
          · intro hpe
            rw [← he] at hpe
            exact absurd (hm ▸ hpe) hq
          · intro _ hc
            rw [← he] at hc
            have : cid' = cid := Option.some.inj hc
            exact hmap _ (lookupLabel_mem hl) this
        · rw [if_neg hm] at he
          rw [← he]
          exact hstore p0 hp0
    | none =>
        rw [assignStep_fresh hqn hl]
        refine ⟨by show cid < st.nextCid + 1; omega, ?_,
          List.mem_append_left _ hclrow, ?_⟩
        · intro p hp
          obtain ⟨p0, hp0, he⟩ := List.mem_map.1 hp
          by_cases hm : p0.pid = q.1
          · rw [if_pos hm] at he
            constructor
            · intro hpe
              rw [← he] at hpe
              exact absurd (hm ▸ hpe) hq
            · intro _ hc
              rw [← he] at hc
              have : st.nextCid = cid := Option.some.inj hc
              omega
          · rw [if_neg hm] at he
            rw [← he]
            exact hstore p0 hp0
        · intro r hr
          rcases List.mem_append.1 hr with hr | hr
          · exact hmap r hr
          · rw [List.mem_singleton.1 hr]
            intro hc
            simp only at hc
            omega

theorem NoiseDone_fold_preserve {pid0 cid : Nat} (rest : List (Nat × Int))
    {st : AssignState} (hrest : pid0 ∉ rest.map Prod.fst)
    (hWF : AssignWF st) (hND : NoiseDone pid0 cid st) :
    NoiseDone pid0 cid (rest.foldl assignStep st) := by
  induction rest generalizing st with
  | nil => exact hND
  | cons q t ih =>
      rw [List.foldl_cons]
      have hq : q.1 ≠ pid0 := by
        intro hc
        exact hrest (by rw [← hc]; exact List.mem_cons_self _ _)
      exact ih (fun hc => hrest (List.mem_cons_of_mem _ hc))
        (AssignWF_step q hWF) (NoiseDone_step hq hWF hND)

theorem NoiseDone_fold {pid0 : Nat} (pairs : List (Nat × Int))
    {st : AssignState} (hWF : AssignWF st)
    (hmem : (pid0, -1) ∈ pairs) (hnd : (pairs.map Prod.fst).Nodup) :
    ∃ cid, NoiseDone pid0 cid (pairs.foldl assignStep st) := by
  induction pairs generalizing st with
  | nil => cases hmem
  | cons q rest ih =>
      rw [List.foldl_cons, List.map_cons, List.nodup_cons] at *
      by_cases hq : q = (pid0, -1)
      · subst hq
        refine ⟨st.nextCid, NoiseDone_fold_preserve rest ?_
          (AssignWF_step _ hWF) (NoiseDone_establish hWF pid0)⟩
        exact hnd.1
      · rcases List.mem_cons.1 hmem with h | h
        · exact absurd h.symm hq
        · exact ih (AssignWF_step q hWF) h hnd.2

/-- After the stats loop starts, the noise photo's singleton cluster is
final: the loop only touches clusters from the label map. -/
def NoiseFinal (pid0 cid : Nat) (stp : List PhotoMeta × List ClusterRow) : Prop :=
  (∀ p ∈ stp.1, (p.pid = pid0 → p.clusterId = some cid ∧ p.isRep = true) ∧
    (p.pid ≠ pid0 → p.clusterId ≠ some cid)) ∧
    (⟨cid, 1, some pid0⟩ : ClusterRow) ∈ stp.2

theorem minByFirst_mem {f : PhotoMeta → PhotoMeta → Bool} {l : List PhotoMeta}
    {r : PhotoMeta} (h : minByFirst f l = some r) : r ∈ l := by
  match l, h with
  | p :: rest, h =>
      have hr : rest.foldl (fun best q => if f q best then q else best) p = r :=
        Option.some.inj h
      rw [← hr]
      clear h hr
      induction rest generalizing p with
      | nil => exact List.mem_singleton.2 rfl
      | cons q t ih =>
          rw [List.foldl_cons]
          rcases List.mem_cons.1 (ih (if f q p then q else p)) with h | h
          · rw [h]
            by_cases hc : f q p
            · rw [if_pos hc]
              exact List.mem_cons_of_mem _ (List.mem_cons_self _ _)
            · rw [if_neg hc]
              exact List.mem_cons_self _ _
          · exact List.mem_cons_of_mem _ (List.mem_cons_of_mem _ h)

theorem NoiseFinal_step {pid0 cid : Nat} {stp : List PhotoMeta × List ClusterRow}
    {e : Int × Nat} (he : e.2 ≠ cid) (hNF : NoiseFinal pid0 cid stp) :
    NoiseFinal pid0 cid (statsStep stp e) := by
  obtain ⟨hstore, hrow⟩ := hNF
  unfold statsStep
  match hr : repSelect (stp.1.filter (fun p => decide (p.clusterId = some e.2))) with
  | none => exact ⟨hstore, hrow⟩
  | some r =>
      show NoiseFinal pid0 cid
        (stp.1.map (fun p => if p.pid = r.pid then { p with isRep := true } else p),
         stp.2.map (fun c => if c.cid = e.2 then
           { c with
              photoCount := (stp.1.filter (fun p => decide (p.clusterId = some e.2))).length,
              repId := some r.pid } else c))
      have hrmem : r ∈ stp.1.filter (fun p => decide (p.clusterId = some e.2)) :=
        minByFirst_mem (show minByFirst repLTb _ = some r from hr)
      have hrcid : r.clusterId = some e.2 := by
        have := List.of_mem_filter hrmem
        simpa using this
      have hrpid : r.pid ≠ pid0 := by
        intro hc
        have := (hstore r (List.mem_of_mem_filter hrmem)).1 hc
        rw [this.1] at hrcid
        exact he (Option.some.inj hrcid).symm
      constructor
      · intro p hp
        obtain ⟨p0, hp0, hpe⟩ := List.mem_map.1 hp
        by_cases hm : p0.pid = r.pid
        · rw [if_pos hm] at hpe
          constructor
          · intro hpid
            rw [← hpe] at hpid
            exact absurd (hm ▸ hpid) hrpid
          · intro _ hc
            rw [← hpe] at hc
            exact (hstore p0 hp0).2 (hm ▸ hrpid) hc
        · rw [if_neg hm] at hpe
          rw [← hpe]
          exact hstore p0 hp0
      · refine List.mem_map.2 ⟨⟨cid, 1, some pid0⟩, hrow, ?_⟩
        rw [if_neg ?_]
        intro hc
        exact he (by simpa using hc.symm)

theorem NoiseFinal_fold {pid0 cid : Nat} (entries : List (Int × Nat))
    {stp : List PhotoMeta × List ClusterRow}
    (hent : ∀ q ∈ entries, q.2 ≠ cid) (hNF : NoiseFinal pid0 cid stp) :
    NoiseFinal pid0 cid (entries.foldl statsStep stp) := by
  induction entries generalizing stp with
  | nil => exact hNF
  | cons e rest ih =>
      rw [List.foldl_cons]
      exact ih (fun q hq => hent q (List.mem_cons_of_mem _ hq))
        (NoiseFinal_step (hent e (List.mem_cons_self _ _)) hNF)

/-- C7.  Every embedded photo labeled noise (`-1`) is stored as its own
singleton cluster: it is assigned a fresh cluster id no other photo shares,
the cluster row has `photo_count = 1` and the photo itself as
representative, and the photo's `is_cluster_representative` flag is set. -/
theorem C7_noise_singleton (clusters0 : List ClusterRow) (store : List PhotoMeta)
    (labels : List Int) (hnd : (store.map (fun p => p.pid)).Nodup)
    (pid0 : Nat) (i : Nat)
    (hpid : ((store.filter (fun p => p.hasEmb)).map (fun p => p.pid))[i]? = some pid0)
    (hlab : labels[i]? = some (-1)) :
    ∃ cid,
      (∀ p ∈ (clusterRun clusters0 store labels).1,
        (p.pid = pid0 → p.clusterId = some cid ∧ p.isRep = true) ∧
        (p.pid ≠ pid0 → p.clusterId ≠ some cid)) ∧
      (⟨cid, 1, some pid0⟩ : ClusterRow) ∈ (clusterRun clusters0 store labels).2 := by
  have hrows : store.filter (fun p => p.hasEmb) ≠ [] := by
    intro hc
    rw [hc] at hpid
    simp at hpid
  unfold clusterRun
  rw [if_neg hrows]
  set rows := store.filter (fun p => p.hasEmb) with hrowsdef
  set pairs := (rows.map (fun p => p.pid)).zip labels with hpairsdef
  have hmem : (pid0, (-1 : Int)) ∈ pairs := by
    refine List.getElem?_mem (n := i) ?_
    rw [hpairsdef]
    exact List.getElem?_zip_eq_some.2 ⟨hpid, hlab⟩
  have hpairnd : (pairs.map Prod.fst).Nodup := by
    have hsub : (pairs.map Prod.fst).Sublist (rows.map (fun p => p.pid)) := by
      rw [hpairsdef]
      exact map_fst_zip_sublist _ _
    refine hsub.nodup (List.Nodup.sublist ?_ hnd)
    rw [hrowsdef]
    have : (store.filter (fun p => p.hasEmb)).map (fun p => p.pid)
        |>.Sublist (store.map (fun p => p.pid)) :=
      List.Sublist.map _ (List.filter_sublist _)
    exact this
  obtain ⟨cid, hND⟩ := NoiseDone_fold pairs (AssignWF_init store) hmem hpairnd
  obtain ⟨_, hstore, hrow, hmap⟩ := hND
  refine ⟨cid, ?_⟩
  have hNF : NoiseFinal pid0 cid
      ((pairs.foldl assignStep ⟨clearAssign store, [], [], 1⟩).store,
        (pairs.foldl assignStep ⟨clearAssign store, [], [], 1⟩).clusters) :=
    ⟨hstore, hrow⟩
  exact NoiseFinal_fold _ hmap hNF

/-- Witness for `C7_noise_singleton` at a concrete run with one noise photo
among two clustered ones. -/
theorem C7_noise_singleton_witness :
    ∃ cid,
      (∀ p ∈ (clusterRun [] [⟨1, none, 1, 1, true, none, false⟩,
          ⟨2, none, 1, 1, true, none, false⟩, ⟨3, none, 1, 1, true, none, false⟩]
          [-1, 4, 4]).1,
        (p.pid = 1 → p.clusterId = some cid ∧ p.isRep = true) ∧
        (p.pid ≠ 1 → p.clusterId ≠ some cid)) ∧
      (⟨cid, 1, some 1⟩ : ClusterRow) ∈ (clusterRun [] [⟨1, none, 1, 1, true, none, false⟩,
          ⟨2, none, 1, 1, true, none, false⟩, ⟨3, none, 1, 1, true, none, false⟩]
          [-1, 4, 4]).2 :=
  C7_noise_singleton [] _ [-1, 4, 4] (by decide) 1 0 (by decide) (by decide)

end PicPick
